import Mathlib

/-!
A verification development for the `gr` tool: a cache-accelerated
"compile-and-run" wrapper for Go packages.  Go strings are embedded as
`List Char` (named `Str` below); Go maps are embedded as association
lists whose insertion overwrites the previous binding; the file system
is embedded as a finite tree; fallible Go code returns `Except`.
Definitions are translated from the Go sources (`build.go`, `embed.go`,
the checksum/module-resolution file and the CLI file); the few places
where the program calls an external library (the go.mod parser, the Go
source parser, `strconv.Unquote`, `module.CheckFilePath`) are modelled
from the specification and say so in their doc comments.
-/

/-- Go strings are embedded as lists of characters. -/
abbrev Str := List Char

/-- Convenience conversion from a Lean string literal to `Str`. -/
def str (s : String) : Str := s.data

deriving instance DecidableEq for Except

/-- `strings.HasPrefix s p`: `s` starts with `p` (argument order as in Go). -/
def goHasPfx (s p : Str) : Bool := List.isPrefixOf p s

/-- `strings.HasSuffix s p`: `s` ends with `p` (argument order as in Go). -/
def goHasSfx (s p : Str) : Bool := List.isSuffixOf p s

/-- `strings.TrimPrefix s p`: drop a leading `p` from `s` if present. -/
def goTrimPfx (s p : Str) : Str := if goHasPfx s p then s.drop p.length else s

/-- `strings.TrimSuffix s p`: drop a trailing `p` from `s` if present. -/
def goTrimSfx (s p : Str) : Str := if goHasSfx s p then s.take (s.length - p.length) else s

/-- `strings.CutPrefix s p`: `some` of the remainder when `s` starts with `p`. -/
def goCutPfx (s p : Str) : Option Str := if goHasPfx s p then some (s.drop p.length) else none

/-!
## Lexical path handling

The program only ever joins rooted (absolute) directories with clean
relative components, via `filepath.Join` = `Clean(a + "/" + b)`.  Paths
are embedded as strings; `splitSegs` breaks a path into its non-empty
segments and `renderAbs` renders an absolute path back from segments,
so `goFilepathJoin` below is `filepath.Join` for a rooted first
argument: it splits, resolves `.` and `..` lexically exactly as
`filepath.Clean` does on a rooted path, and re-renders.
-/

/-- Split a path into its non-empty `/`-separated segments. -/
def splitSegs (p : Str) : List Str :=
  (p.splitOn '/').filter (fun s => s ≠ [])

/-- Render an absolute path from segments: `[]` is the root `/`. -/
def renderAbs (segs : List Str) : Str :=
  if segs = [] then ['/'] else segs.foldl (fun acc s => acc ++ ['/'] ++ s) []

/-- One step of `filepath.Clean` on a rooted path: `.` and empty segments
vanish, `..` pops (and is dropped at the root), anything else pushes. -/
def cleanStep (stack : List Str) (seg : Str) : List Str :=
  if seg = ['.'] then stack
  else if seg = ['.', '.'] then stack.dropLast
  else stack ++ [seg]

/-- `filepath.Join a b` for a rooted `a`: `Clean(a + "/" + b)`. -/
def goFilepathJoin (a b : Str) : Str :=
  renderAbs ((splitSegs (a ++ ['/'] ++ b)).foldl cleanStep [])

/-- `filepath.Dir` for a rooted path: drop the last segment. -/
def goFilepathDir (p : Str) : Str := renderAbs ((splitSegs p).dropLast)

/-- `filepath.Base` for a rooted path: the last segment (or `/` for the root). -/
def goFilepathBase (p : Str) : Str :=
  match (splitSegs p).getLast? with
  | some s => s
  | none => ['/']

/-!
## Module and package resolution data model

`moduleInfo` mirrors the Go struct of the same name: the module's own
module path and a map from package import paths to directories, where
the empty string marks a remote (not locally traced) import.  The Go
`map[string]string` is embedded as an association list; `insertKV`
mirrors Go map assignment (overwrite or add), `List.lookup` mirrors
map indexing.
-/

structure ModuleInfoM where
  path : Str
  packages : List (Str × Str)
deriving DecidableEq, Repr

/-- Go map assignment `m[k] = v`: drop any old binding of `k`, append the new one. -/
def insertKV (m : List (Str × Str)) (k v : Str) : List (Str × Str) :=
  m.filter (fun p => p.1 ≠ k) ++ [(k, v)]

/-- `packageInsideOf path base` from the source: `base == path ||
strings.HasPrefix(path, base+"/")`. -/
def packageInsideOf (path base : Str) : Bool :=
  base = path || goHasPfx path (base ++ ['/'])

/-- `dirForPackageInModule` from the source: the module's own directory for
the module path itself, otherwise the module directory joined with
the import path remainder. -/
def dirForPackageInModule (modulePath moduleDir importPath : Str) : Str :=
  if modulePath = importPath then moduleDir
  else goFilepathJoin moduleDir (goTrimPfx importPath (modulePath ++ ['/']))

/-- C10: `packageInsideOf` matches exactly at segment boundaries: `path`
equals `base`, or `path` is `base` followed by `/` and a remainder; in
particular `example.com/foobar` is not inside `example.com/foo` even
though the latter is a plain string prefix of the former. -/
theorem packageInsideOf_segment_aligned :
    (∀ path base : Str,
      packageInsideOf path base = true ↔
        (path = base ∨ ∃ rest : Str, path = base ++ '/' :: rest)) ∧
    packageInsideOf (str "example.com/foobar") (str "example.com/foo") = false ∧
    packageInsideOf (str "example.com/foo/bar") (str "example.com/foo") = true ∧
    packageInsideOf (str "example.com/foo") (str "example.com/foo") = true := by
  refine ⟨fun path base => ?_, by decide, by decide, by decide⟩
  unfold packageInsideOf goHasPfx
  rw [Bool.or_eq_true, decide_eq_true_iff, List.isPrefixOf_iff_prefix]
  constructor
  · rintro (h | h)
    · exact Or.inl h.symm
    · rcases h with ⟨t, ht⟩
      exact Or.inr ⟨t, by simpa using ht.symm⟩
  · rintro (h | ⟨rest, hrest⟩)
    · exact Or.inl h.symm
    · exact Or.inr ⟨rest, by simpa using hrest.symm⟩

/-!
## The standard-library import skip (`stdlibPackageRE`)

`parsePackage` skips an import without resolving it when the *quoted*
literal (`imp.Path.Value`, quotes included) matches the anchored
regular expression `^\"[a-z]+(/|")`.  `stdlibPackageREMatch` is that
regular expression's matching semantics: after the opening quote there
is some nonempty run of lowercase letters immediately followed by a
slash or a closing quote.
-/

/-- The character class `[a-z]` of the regular expression. -/
def isLowerAZ (c : Char) : Bool := 'a' ≤ c && c ≤ 'z'

/-- Matching semantics of the anchored regular expression `^\"[a-z]+(/|")`
used by `parsePackage` on the quoted import literal. -/
def stdlibPackageREMatch (s : Str) : Bool :=
  match s with
  | '"' :: rest =>
      (List.range (rest.length + 1)).any (fun n =>
        decide (1 ≤ n) && (rest.take n).all isLowerAZ &&
        (match rest.drop n with
         | c :: _ => c == '/' || c == '"'
         | [] => false))
  | _ => false

/-- The spec's wording for the skip condition: a single-segment,
all-lowercase import path. -/
def singleSegmentLowercase (p : Str) : Bool :=
  !p.contains '/' && !p.isEmpty && p.all isLowerAZ

/-- The corrected characterization of the skip condition: the *first*
segment of the import path consists solely of lowercase letters. -/
def firstSegAllLower (p : Str) : Bool :=
  decide (p.takeWhile (fun c => c != '/') ≠ []) &&
    (p.takeWhile (fun c => c != '/')).all isLowerAZ
lemma take_all_le_takeWhile_length {q : Char → Bool} :
    ∀ (p : Str) (n : Nat), n ≤ p.length → (p.take n).all q = true →
      n ≤ (p.takeWhile q).length := by
  intro p
  induction p with
  | nil => intro n h _; simpa using h
  | cons c cs ih =>
    intro n hn hall
    cases n with
    | zero => exact Nat.zero_le _
    | succ m =>
      simp only [List.take_succ_cons, List.all_cons, Bool.and_eq_true] at hall
      simp only [List.takeWhile_cons, hall.1, List.length_cons]
      exact Nat.succ_le_succ (ih m (by simpa using hn) hall.2)

lemma takeWhile_eq_take_of_stop {q : Char → Bool} :
    ∀ (p : Str) (n : Nat) (hn : n < p.length), (p.take n).all q = true →
      q (p.get ⟨n, hn⟩) = false → p.takeWhile q = p.take n := by
  intro p
  induction p with
  | nil => intro n hn; exact absurd hn (by simp)
  | cons c cs ih =>
    intro n hn hall hstop
    cases n with
    | zero =>
      simp only [List.get] at hstop
      simp [List.takeWhile_cons, hstop]
    | succ m =>
      simp only [List.take_succ_cons, List.all_cons, Bool.and_eq_true] at hall
      simp only [List.get] at hstop
      simp only [List.take_succ_cons]
      rw [List.takeWhile_cons]
      simp only [hall.1, if_true]
      rw [ih m (by simpa using hn) hall.2 hstop]

lemma get_takeWhile_length_false {q : Char → Bool} :
    ∀ (p : Str) (h : (p.takeWhile q).length < p.length),
      q (p.get ⟨(p.takeWhile q).length, h⟩) = false := by
  intro p
  induction p with
  | nil => intro h; exact absurd h (by simp)
  | cons c cs ih =>
    intro h
    by_cases hc : q c = true
    · have hw : (c :: cs).takeWhile q = c :: cs.takeWhile q := by
        simp [List.takeWhile_cons, hc]
      have h' : (cs.takeWhile q).length < cs.length := by
        have h2 := h; rw [hw] at h2; simpa using h2
      have hidx : ((c :: cs).takeWhile q).length = (cs.takeWhile q).length + 1 := by
        rw [hw]; rfl
      have hget : (c :: cs).get ⟨((c :: cs).takeWhile q).length, h⟩ =
          cs.get ⟨(cs.takeWhile q).length, h'⟩ := by
        simp only [List.get_eq_getElem]
        simp only [hidx, List.getElem_cons_succ]
      rw [hget]
      exact ih h'
    · have hw : (c :: cs).takeWhile q = [] := by
        rw [List.takeWhile_cons]
        simp [hc]
      have hget : (c :: cs).get ⟨((c :: cs).takeWhile q).length, h⟩ = c := by
        simp only [List.get_eq_getElem]
        simp only [hw, List.length_nil, List.getElem_cons_zero]
      rw [hget]
      simpa using hc

lemma isLowerAZ_ne_slash {c : Char} (h : isLowerAZ c = true) : (c != '/') = true := by
  rcases Bool.and_eq_true _ _ |>.mp h with ⟨h1, _⟩
  by_contra hb
  have : c = '/' := by
    have := Bool.of_not_eq_true hb
    simpa [bne] using this
  subst this
  exact absurd h1 (by decide)

lemma quote_not_lower : isLowerAZ '"' = false := by decide

/-- C3 (amended): for an import path free of embedded quotes the skip
guard `stdlibPackageREMatch`, applied to the quoted literal as
`parsePackage` does, holds iff the path's *first* segment consists
solely of lowercase letters — not iff the path is single-segment. -/
theorem stdlibPackageREMatch_iff_firstSegAllLower :
    ∀ p : Str, '"' ∉ p →
      (stdlibPackageREMatch ('"' :: (p ++ ['"'])) = true ↔ firstSegAllLower p = true) := by
  intro p hq
  show (List.range ((p ++ ['"']).length + 1)).any _ = true ↔ _
  rw [List.any_eq_true]
  unfold firstSegAllLower
  constructor
  · rintro ⟨n, hmem, hpred⟩
    rw [List.mem_range] at hmem
    simp only [Bool.and_eq_true, decide_eq_true_iff] at hpred
    obtain ⟨⟨h1, hall⟩, hc⟩ := hpred
    have hnp : n ≤ p.length := by
      by_contra hgt
      push_neg at hgt
      have htk : (p ++ ['"']).take n = p ++ ['"'] := by
        apply List.take_of_length_le
        simp only [List.length_append, List.length_cons, List.length_nil]
        omega
      rw [htk, List.all_eq_true] at hall
      exact absurd (hall '"' (by simp)) (by decide)
    rw [List.take_append_of_le_length hnp] at hall
    rw [List.drop_append_of_le_length hnp] at hc
    rw [Bool.and_eq_true, decide_eq_true_iff]
    rcases Nat.lt_or_ge n p.length with hlt | hge
    · -- the run stops strictly inside p: the next character must be '/'
      rw [List.drop_eq_getElem_cons hlt] at hc
      simp only [List.cons_append] at hc
      have hsl : p[n] = '/' := by
        rcases Bool.or_eq_true _ _ |>.mp hc with h | h
        · exact eq_of_beq h
        · exfalso
          apply hq
          rw [← eq_of_beq h]
          exact List.getElem_mem hlt
      have hfs : p.takeWhile (fun c => c != '/') = p.take n := by
        apply takeWhile_eq_take_of_stop p n hlt
        · rw [List.all_eq_true] at hall ⊢
          intro x hx
          exact isLowerAZ_ne_slash (hall x hx)
        · show (p[n] != '/') = false
          rw [hsl]
          decide
      rw [hfs]
      refine ⟨?_, hall⟩
      intro hnil
      have : (p.take n).length = 0 := by rw [hnil]; rfl
      rw [List.length_take] at this
      omega
    · -- the run covers all of p, which therefore has no slash at all
      have hnn : n = p.length := Nat.le_antisymm hnp hge
      subst hnn
      rw [List.take_length] at hall
      have hfs : p.takeWhile (fun c => c != '/') = p := by
        rw [List.takeWhile_eq_self_iff]
        rw [List.all_eq_true] at hall
        intro x hx
        exact isLowerAZ_ne_slash (hall x hx)
      rw [hfs]
      refine ⟨?_, hall⟩
      intro hnil
      rw [hnil] at h1
      exact absurd h1 (by decide)
  · intro hrhs
    rw [Bool.and_eq_true, decide_eq_true_iff] at hrhs
    obtain ⟨hne, hall⟩ := hrhs
    set fs := p.takeWhile (fun c => c != '/') with hfsdef
    have hpre : fs <+: p := List.takeWhile_prefix _
    have hk : fs.length ≤ p.length := hpre.length_le
    have hktake : fs = p.take fs.length := List.prefix_iff_eq_take.mp hpre
    have hk1 : 1 ≤ fs.length := by
      rw [Nat.one_le_iff_ne_zero]
      intro h0
      rw [List.length_eq_zero] at h0
      exact hne h0
    refine ⟨fs.length, ?_, ?_⟩
    · rw [List.mem_range, List.length_append]
      omega
    · simp only [Bool.and_eq_true, decide_eq_true_iff]
      refine ⟨⟨hk1, ?_⟩, ?_⟩
      · rw [List.take_append_of_le_length hk, ← hktake]
        exact hall
      · rw [List.drop_append_of_le_length hk]
        rcases Nat.lt_or_ge fs.length p.length with hlt | hge
        · rw [List.drop_eq_getElem_cons hlt]
          simp only [List.cons_append]
          have hstop := get_takeWhile_length_false (q := fun c => c != '/') p hlt
          have hsl : p[fs.length] = '/' := by
            rw [List.get_eq_getElem] at hstop
            have hb : (p[fs.length] == '/') = true := by
              simp only [bne] at hstop
              simpa using hstop
            exact eq_of_beq hb
          rw [hsl]
          decide
        · have : p.length = fs.length := Nat.le_antisymm hge hk
          rw [List.drop_eq_nil_of_le (by omega), List.nil_append]
          decide

/-- C3 (counterexample): the multi-segment import path `encoding/json` is
skipped by the guard even though it is not a single-segment path, so
"skipped iff single-segment lowercase" fails on the code. -/
theorem stdlibPackageREMatch_counterexample :
    stdlibPackageREMatch (str "\"encoding/json\"") = true ∧
    singleSegmentLowercase (str "encoding/json") = false := by
  constructor
  · decide
  · decide

/-- Witness for the amended C3 theorem at the concrete path `encoding/json`. -/
theorem stdlibPackageREMatch_iff_firstSegAllLower_witness :
    stdlibPackageREMatch ('"' :: (str "encoding/json" ++ ['"'])) = true :=
  (stdlibPackageREMatch_iff_firstSegAllLower (str "encoding/json") (by decide)).mpr (by decide)

/-!
## One iteration of `resolveImport`

`resolveStepGo` is the body of the resolution loop of `resolveImport`, acting
on the `moduleInfo` found for the current directory: fold over the
package entries keeping the longest `packageInsideOf` match exactly as
the Go `for ... range` does, then dispatch on the winner.  Because the
iteration order of a Go map is unspecified, theorems below establish
which entry the fold selects without relying on entry order.
-/

inductive ResolveStep where
  | err
  | remote
  | localDir (dir : Str)
  | hop (dir : Str)
deriving DecidableEq, Repr

/-- The longest-match accumulation inside `resolveImport`:
`longestMatchedPath`/`longestMatchedPathDir` start empty and an entry
replaces them when it matches and is strictly longer. -/
def longestMatchFold (pkgs : List (Str × Str)) (importPath : Str) : Str × Str :=
  pkgs.foldl
    (fun acc pd =>
      if packageInsideOf importPath pd.1 && decide (acc.1.length < pd.1.length) then pd else acc)
    ([], [])

/-- One iteration of `resolveImport`'s loop: no match is the
"outside of every module" failure; an empty directory is a remote
one; a match on the module's own path resolves inside this module;
any other match hops to the replacement directory. -/
def resolveStepGo (mi : ModuleInfoM) (importPath : Str) : ResolveStep :=
  if (longestMatchFold mi.packages importPath).1 = [] then .err
  else if (longestMatchFold mi.packages importPath).2 = [] then .remote
  else if (longestMatchFold mi.packages importPath).1 = mi.path then
    .localDir (dirForPackageInModule (longestMatchFold mi.packages importPath).1
      (longestMatchFold mi.packages importPath).2 importPath)
  else .hop (longestMatchFold mi.packages importPath).2

lemma longestMatchFold_go (pkgs : List (Str × Str)) (ip : Str) :
    ∀ acc : Str × Str,
      (pkgs.foldl
          (fun acc pd =>
            if packageInsideOf ip pd.1 && decide (acc.1.length < pd.1.length) then pd else acc)
          acc = acc ∨
        (pkgs.foldl
            (fun acc pd =>
              if packageInsideOf ip pd.1 && decide (acc.1.length < pd.1.length) then pd else acc)
            acc ∈ pkgs ∧
          packageInsideOf ip
              (pkgs.foldl
                  (fun acc pd =>
                    if packageInsideOf ip pd.1 && decide (acc.1.length < pd.1.length) then pd
                    else acc)
                  acc).1 =
            true)) ∧
      acc.1.length ≤
        (pkgs.foldl
            (fun acc pd =>
              if packageInsideOf ip pd.1 && decide (acc.1.length < pd.1.length) then pd else acc)
            acc).1.length ∧
      ∀ pd ∈ pkgs, packageInsideOf ip pd.1 = true →
        pd.1.length ≤
          (pkgs.foldl
              (fun acc pd =>
                if packageInsideOf ip pd.1 && decide (acc.1.length < pd.1.length) then pd else acc)
              acc).1.length := by
  induction pkgs with
  | nil => intro acc; exact ⟨Or.inl rfl, Nat.le_refl _, by simp⟩
  | cons pd rest ih =>
    intro acc
    simp only [List.foldl_cons]
    by_cases hcond : (packageInsideOf ip pd.1 && decide (acc.1.length < pd.1.length)) = true
    · rw [if_pos hcond]
      obtain ⟨hr, hlen, hmax⟩ := ih pd
      rw [Bool.and_eq_true, decide_eq_true_iff] at hcond
      refine ⟨?_, ?_, ?_⟩
      · rcases hr with h | ⟨hmem, hin⟩
        · exact Or.inr ⟨by rw [h]; exact List.mem_cons_self pd rest, by rw [h]; exact hcond.1⟩
        · exact Or.inr ⟨List.mem_cons_of_mem pd hmem, hin⟩
      · exact Nat.le_trans (Nat.le_of_lt hcond.2) hlen
      · intro qd hqd hqin
        rcases List.mem_cons.mp hqd with h | h
        · rw [h]; exact hlen
        · exact hmax qd h hqin
    · rw [if_neg hcond]
      obtain ⟨hr, hlen, hmax⟩ := ih acc
      refine ⟨?_, hlen, ?_⟩
      · rcases hr with h | ⟨hmem, hin⟩
        · exact Or.inl h
        · exact Or.inr ⟨List.mem_cons_of_mem pd hmem, hin⟩
      · intro qd hqd hqin
        rcases List.mem_cons.mp hqd with h | h
        · subst h
          rw [Bool.and_eq_true] at hcond
          push_neg at hcond
          have h2 : ¬ (acc.1.length < qd.1.length) := by simpa using hcond hqin
          omega
        · exact hmax qd h hqin

lemma longestMatchFold_spec (pkgs : List (Str × Str)) (ip : Str) :
    (longestMatchFold pkgs ip = ([], []) ∨
      (longestMatchFold pkgs ip ∈ pkgs ∧ packageInsideOf ip (longestMatchFold pkgs ip).1 = true)) ∧
    ∀ pd ∈ pkgs, packageInsideOf ip pd.1 = true →
      pd.1.length ≤ (longestMatchFold pkgs ip).1.length := by
  obtain ⟨hr, _, hmax⟩ := longestMatchFold_go pkgs ip ([], [])
  exact ⟨hr, hmax⟩

lemma lookup_eq_of_mem_nodupKeys {l : List (Str × Str)} {k v : Str}
    (hnd : (l.map Prod.fst).Nodup) (hmem : (k, v) ∈ l) : List.lookup k l = some v := by
  induction l with
  | nil => cases hmem
  | cons hd tl ih =>
    rcases List.mem_cons.mp hmem with h | h
    · rw [← h]
      simp [List.lookup]
    · have hk : hd.1 ≠ k := by
        intro hkk
        rw [List.map_cons, List.nodup_cons] at hnd
        apply hnd.1
        rw [hkk]
        exact List.mem_map_of_mem Prod.fst h
      have hbeq : (k == hd.1) = false := beq_eq_false_iff_ne.mpr (fun he => hk he.symm)
      simp only [List.lookup, hbeq]
      exact ih (by rw [List.map_cons, List.nodup_cons] at hnd; exact hnd.2) h

lemma mem_of_lookup_eq_some {l : List (Str × Str)} {k v : Str}
    (h : List.lookup k l = some v) : (k, v) ∈ l := by
  induction l with
  | nil => cases h
  | cons hd tl ih =>
    by_cases hbeq : (k == hd.1) = true
    · simp only [List.lookup, hbeq] at h
      have hk : k = hd.1 := eq_of_beq hbeq
      have hv : hd.2 = v := by injection h
      rw [hk, ← hv]
      exact List.mem_cons_self _ _
    · have hb : (k == hd.1) = false := by
        cases hb2 : (k == hd.1) with
        | true => exact absurd hb2 hbeq
        | false => rfl
      simp only [List.lookup, hb] at h
      exact List.mem_cons_of_mem hd (ih h)

/-- C5: one iteration of `resolveImport` fails with the
"outside of every module" error iff no package entry of the owning
module matches the import path; otherwise it dispatches on a matching
entry of maximal path length — remote for the empty-directory sentinel,
and, when the winner is the module's own declared path, the directory
obtained by `dirForPackageInModule` (strip the declared path, join the
remainder to the module root recorded for it). -/
theorem resolveImport_selects_longest_match (mi : ModuleInfoM) (ip : Str)
    (hkeys : ∀ pd ∈ mi.packages, pd.1 ≠ []) :
    (resolveStepGo mi ip = .err ↔ ∀ pd ∈ mi.packages, packageInsideOf ip pd.1 = false)
    ∧ (∀ pd ∈ mi.packages, packageInsideOf ip pd.1 = true →
        ∃ best ∈ mi.packages, packageInsideOf ip best.1 = true ∧
          (∀ qd ∈ mi.packages, packageInsideOf ip qd.1 = true → qd.1.length ≤ best.1.length) ∧
          resolveStepGo mi ip =
            (if best.2 = [] then ResolveStep.remote
             else if best.1 = mi.path then
               ResolveStep.localDir (dirForPackageInModule best.1 best.2 ip)
             else ResolveStep.hop best.2))
    ∧ (∀ root : Str, (mi.packages.map Prod.fst).Nodup →
        List.lookup mi.path mi.packages = some root → root ≠ [] →
        (longestMatchFold mi.packages ip).1 = mi.path →
        resolveStepGo mi ip = .localDir (dirForPackageInModule mi.path root ip)) := by
  obtain ⟨hdisj, hmax⟩ := longestMatchFold_spec mi.packages ip
  refine ⟨⟨?_, ?_⟩, ?_, ?_⟩
  · -- err → no entry matches
    intro herr pd hpd
    by_contra hb
    have hin : packageInsideOf ip pd.1 = true := by
      cases h2 : packageInsideOf ip pd.1 with
      | true => rfl
      | false => exact absurd h2 hb
    have hlen := hmax pd hpd hin
    have hb1 : (longestMatchFold mi.packages ip).1 = [] := by
      by_contra hb1
      unfold resolveStepGo at herr
      rw [if_neg hb1] at herr
      by_cases hb2 : (longestMatchFold mi.packages ip).2 = []
      · rw [if_pos hb2] at herr; cases herr
      · rw [if_neg hb2] at herr
        by_cases hb3 : (longestMatchFold mi.packages ip).1 = mi.path
        · rw [if_pos hb3] at herr; cases herr
        · rw [if_neg hb3] at herr; cases herr
    rw [hb1] at hlen
    simp only [List.length_nil, Nat.le_zero, List.length_eq_zero] at hlen
    exact hkeys pd hpd hlen
  · -- no entry matches → err
    intro hnone
    have hinit : longestMatchFold mi.packages ip = ([], []) := by
      rcases hdisj with h | ⟨hmem, hin⟩
      · exact h
      · rw [hnone _ hmem] at hin; cases hin
    unfold resolveStepGo
    rw [if_pos (by rw [hinit])]
  · -- some entry matches → the fold's winner decides the result
    intro pd hpd hin
    have hb1 : (longestMatchFold mi.packages ip).1 ≠ [] := by
      intro hb1
      have hlen := hmax pd hpd hin
      rw [hb1] at hlen
      simp only [List.length_nil, Nat.le_zero, List.length_eq_zero] at hlen
      exact hkeys pd hpd hlen
    have hbest : longestMatchFold mi.packages ip ∈ mi.packages ∧
        packageInsideOf ip (longestMatchFold mi.packages ip).1 = true := by
      rcases hdisj with h | h
      · exact absurd (by rw [h]) hb1
      · exact h
    refine ⟨longestMatchFold mi.packages ip, hbest.1, hbest.2, hmax, ?_⟩
    unfold resolveStepGo
    rw [if_neg hb1]
  · -- winner is the declared path: its directory is the recorded module root
    intro root hnd hlook hroot hwin
    have hmemroot : (mi.path, root) ∈ mi.packages := mem_of_lookup_eq_some hlook
    have hpne : mi.path ≠ [] := hkeys _ hmemroot
    have hb1 : (longestMatchFold mi.packages ip).1 ≠ [] := by rw [hwin]; exact hpne
    have hbest : longestMatchFold mi.packages ip ∈ mi.packages := by
      rcases hdisj with h | h
      · exact absurd (by rw [h]) hb1
      · exact h.1
    have hlook2 : List.lookup mi.path mi.packages =
        some (longestMatchFold mi.packages ip).2 := by
      have := lookup_eq_of_mem_nodupKeys hnd
        (show ((longestMatchFold mi.packages ip).1, (longestMatchFold mi.packages ip).2)
            ∈ mi.packages by simpa using hbest)
      rw [hwin] at this
      exact this
    have hr2 : (longestMatchFold mi.packages ip).2 = root := by
      rw [hlook2] at hlook
      injection hlook
    unfold resolveStepGo
    rw [if_neg hb1, if_neg (by rw [hr2]; exact hroot), if_pos hwin, hwin, hr2]

/-- Witness for C5 at a concrete module: two entries, the longer nested
path wins, and the own-path case joins the remainder to the module root. -/
theorem resolveImport_selects_longest_match_witness :
    resolveStepGo
        ⟨str "example.com/m", [(str "example.com/m", str "/src/m"), (str "dep.io/x", [])]⟩
        (str "example.com/m/sub") =
      ResolveStep.localDir (dirForPackageInModule (str "example.com/m") (str "/src/m")
        (str "example.com/m/sub")) := by
  have h := (resolveImport_selects_longest_match
    ⟨str "example.com/m", [(str "example.com/m", str "/src/m"), (str "dep.io/x", [])]⟩
    (str "example.com/m/sub") (by decide)).2.2 (str "/src/m") (by decide) (by decide)
    (by decide) (by decide)
  exact h

/-!
## The full `resolveImport` loop and its (non-)termination

`resolveImportFuel` runs `resolveStepGo` repeatedly, rooting each
iteration at the replacement directory of the previous hop, exactly as
the `for` loop in `resolveImport` does.  `findModule`'s result for a
given directory within one `parseContext` is abstracted as a function
`env` from directories to optional module information (`none` models a
`findModule` failure); inside one fingerprint computation `findModule`
is deterministic per directory (the module cache returns the memoized
value on revisits), so this abstraction is faithful.  The Go loop has
no fuel; `none` from the fuel version for every fuel value is exactly
an infinite loop of the source program.
-/

inductive RIResult where
  | err
  | remote
  | localDir (dir : Str)
deriving DecidableEq, Repr

/-- The `resolveImport` loop with explicit fuel.  A `hop` continues the
loop rooted at the replacement directory; exhausted fuel returns `none`,
which for all fuel values means the source loop never terminates. -/
def resolveImportFuel (env : Str → Option ModuleInfoM) :
    Nat → Str → Str → Option RIResult
  | 0, _, _ => none
  | fuel + 1, dir, importPath =>
    match env dir with
    | none => some .err
    | some mi =>
      match resolveStepGo mi importPath with
      | .err => some .err
      | .remote => some .remote
      | .localDir d => some (.localDir d)
      | .hop d => resolveImportFuel env fuel d importPath

lemma resolveImportFuel_succ_some (env : Str → Option ModuleInfoM) (n : Nat)
    (dir ip : Str) (mi : ModuleInfoM) (henv : env dir = some mi) :
    resolveImportFuel env (n + 1) dir ip =
      match resolveStepGo mi ip with
      | .err => some .err
      | .remote => some .remote
      | .localDir d => some (.localDir d)
      | .hop d => resolveImportFuel env n d ip := by
  simp only [resolveImportFuel]
  rw [henv]

lemma resolveImportFuel_succ_none (env : Str → Option ModuleInfoM) (n : Nat)
    (dir ip : Str) (henv : env dir = none) :
    resolveImportFuel env (n + 1) dir ip = some .err := by
  simp only [resolveImportFuel]
  rw [henv]

lemma resolveImportFuel_succ_hop (env : Str → Option ModuleInfoM) (n : Nat)
    (dir ip : Str) (mi : ModuleInfoM) (d : Str) (henv : env dir = some mi)
    (hstep : resolveStepGo mi ip = .hop d) :
    resolveImportFuel env (n + 1) dir ip = resolveImportFuel env n d ip := by
  rw [resolveImportFuel_succ_some env n dir ip mi henv, hstep]

/-- The single-module environment produced by a manifest
`module a` + `replace c => ./`: the replacement maps import path `c`
back to the module's own directory `/a` (`filepath.Join("/a", "./") = "/a"`). -/
def selfLoopEnv : Str → Option ModuleInfoM := fun d =>
  if d = str "/a" then
    some ⟨str "a", [(str "a", str "/a"), (str "c", str "/a")]⟩
  else none

lemma selfLoopEnv_resolveImport_none :
    ∀ fuel : Nat, resolveImportFuel selfLoopEnv fuel (str "/a") (str "c") = none := by
  intro fuel
  induction fuel with
  | zero => rfl
  | succ n ih =>
    have henv : selfLoopEnv (str "/a") =
        some ⟨str "a", [(str "a", str "/a"), (str "c", str "/a")]⟩ := by
      unfold selfLoopEnv
      rw [if_pos rfl]
    rw [resolveImportFuel_succ_hop selfLoopEnv n (str "/a") (str "c")
      ⟨str "a", [(str "a", str "/a"), (str "c", str "/a")]⟩ (str "/a") henv (by decide)]
    exact ih

/-- C2 (counterexample): with the self-referential replacement
environment above, resolving import `c` from `/a` exhausts every fuel
bound — the source loop runs forever, so `resolveImport` does not
terminate for every context, directory and import path. -/
theorem resolveImport_nontermination_counterexample :
    (∃ fuel : Nat, resolveImportFuel selfLoopEnv fuel (str "/a") (str "c") ≠ none) = False :=
  eq_false fun hex =>
    match hex with
    | ⟨fuel, hne⟩ => hne (selfLoopEnv_resolveImport_none fuel)

lemma resolveImportFuel_mono (env : Str → Option ModuleInfoM) (ip : Str) :
    ∀ (fuel fuel' : Nat) (dir : Str), fuel ≤ fuel' →
      resolveImportFuel env fuel dir ip ≠ none →
      resolveImportFuel env fuel' dir ip = resolveImportFuel env fuel dir ip := by
  intro fuel
  induction fuel with
  | zero => intro fuel' dir _ hne; exact absurd rfl hne
  | succ n ih =>
    intro fuel' dir hle hne
    cases fuel' with
    | zero => omega
    | succ m =>
      cases henv : env dir with
      | none =>
        rw [resolveImportFuel_succ_none env m dir ip henv,
          resolveImportFuel_succ_none env n dir ip henv]
      | some mi =>
        rw [resolveImportFuel_succ_some env m dir ip mi henv,
          resolveImportFuel_succ_some env n dir ip mi henv]
        cases hstep : resolveStepGo mi ip with
        | err => rfl
        | remote => rfl
        | localDir d => rfl
        | hop d =>
          have hne' : resolveImportFuel env n d ip ≠ none := by
            intro h
            apply hne
            rw [resolveImportFuel_succ_hop env n dir ip mi d henv hstep]
            exact h
          exact ih m d (by omega) hne'

/-- C2 (amended): the loop terminates whenever the hop relation admits a
strictly decreasing measure on resolution roots (in particular whenever
no chain of replace directives revisits a directory); the stated
invariant "each hop strictly changes the resolution root" is not enough,
because a replace directive can map an import path back to the directory
resolution started from, as `resolveImport_nontermination_counterexample`
shows. -/
theorem resolveImport_terminates_of_decreasing_measure
    (env : Str → Option ModuleInfoM) (ip : Str) (r : Str → Nat)
    (hdec : ∀ dir dir' : Str, ∀ mi : ModuleInfoM,
      env dir = some mi → resolveStepGo mi ip = .hop dir' → r dir' < r dir) :
    ∀ dir : Str, resolveImportFuel env (r dir + 1) dir ip ≠ none := by
  have main : ∀ n : Nat, ∀ dir : Str, r dir = n →
      resolveImportFuel env (r dir + 1) dir ip ≠ none := by
    intro n
    induction n using Nat.strong_induction_on with
    | _ n ihn =>
      intro dir hrdir
      cases henv : env dir with
      | none =>
        rw [resolveImportFuel_succ_none env (r dir) dir ip henv]
        simp
      | some mi =>
        rw [resolveImportFuel_succ_some env (r dir) dir ip mi henv]
        cases hstep : resolveStepGo mi ip with
        | err => simp
        | remote => simp
        | localDir d => simp
        | hop d =>
          have hlt : r d < n := hrdir ▸ hdec dir d mi henv hstep
          have hne : resolveImportFuel env (r d + 1) d ip ≠ none :=
            ihn (r d) hlt d rfl
          show resolveImportFuel env (r dir) d ip ≠ none
          rw [resolveImportFuel_mono env ip (r d + 1) (r dir) d (by omega) hne]
          exact hne
  intro dir
  exact main (r dir) dir rfl
/-- A two-module environment with an acyclic replacement chain:
module `a` at `/a` replaces `c` by `/b`, and the module at `/b`
declares `c` itself. -/
def chainEnv : Str → Option ModuleInfoM := fun d =>
  if d = str "/a" then
    some ⟨str "a", [(str "a", str "/a"), (str "c", str "/b")]⟩
  else if d = str "/b" then
    some ⟨str "c", [(str "c", str "/b")]⟩
  else none

/-- Witness for the amended C2 theorem: with the acyclic chain
environment and the measure 1 for `/a`, 0 elsewhere, resolution of `c`
from `/a` terminates within the measure-derived fuel bound. -/
theorem resolveImport_terminates_of_decreasing_measure_witness :
    resolveImportFuel chainEnv 2 (str "/a") (str "c") ≠ none := by
  have hdec : ∀ dir dir' : Str, ∀ mi : ModuleInfoM,
      chainEnv dir = some mi → resolveStepGo mi (str "c") = .hop dir' →
      (fun d => if d = str "/a" then 1 else 0) dir' <
        (fun d => if d = str "/a" then 1 else 0) dir := by
    intro dir dir' mi henv hstep
    unfold chainEnv at henv
    by_cases ha : dir = str "/a"
    · rw [if_pos ha] at henv
      have hmi : mi = ⟨str "a", [(str "a", str "/a"), (str "c", str "/b")]⟩ := by
        injection henv with h
        exact h.symm
      subst hmi
      have : resolveStepGo ⟨str "a", [(str "a", str "/a"), (str "c", str "/b")]⟩ (str "c") =
          .hop (str "/b") := by decide
      rw [this] at hstep
      have hd' : dir' = str "/b" := by injection hstep with h; exact h.symm
      subst hd'
      rw [ha]
      decide
    · rw [if_neg ha] at henv
      by_cases hb : dir = str "/b"
      · rw [if_pos hb] at henv
        have hmi : mi = ⟨str "c", [(str "c", str "/b")]⟩ := by
          injection henv with h
          exact h.symm
        subst hmi
        have : resolveStepGo ⟨str "c", [(str "c", str "/b")]⟩ (str "c") =
            .localDir (str "/b") := by decide
        rw [this] at hstep
        cases hstep
      · rw [if_neg hb] at henv
        cases henv
  have h := resolveImport_terminates_of_decreasing_measure chainEnv (str "c")
    (fun d => if d = str "/a" then 1 else 0) hdec (str "/a")
  have h2 : (if str "/a" = str "/a" then 1 else 0) + 1 = 2 := by decide
  rw [show (fun d => if d = str "/a" then 1 else 0) (str "/a") + 1 = 2 from h2] at h
  exact h

/-!
## Manifest parsing (`parseModule`)

`modfile.Parse` is an external library; per the spec it is a conformant
manifest parser returning the declared module path, the required module
paths and the replace directives.  `ModFileM` is that parsed form,
modelled from the spec; `packagesOfModfile` is the map-building part of
`parseModule` translated from the source: the module's own path first,
then every require with the empty-string remote sentinel, then every
version-less (local) replace with its directory — each assignment
overwriting any previous binding of the same key, as Go map assignment
does.
-/

structure ModReplaceM where
  oldPath : Str
  newPath : Str
  newVersion : Str
deriving DecidableEq, Repr

/-- Modelled from the spec: the parsed form of a module manifest as
returned by the conformant manifest parser (declared module path,
required module paths, replace directives).  The parser validates
syntax and path well-formedness only; it does not reject directives
that mention the module's own declared path. -/
structure ModFileM where
  modulePath : Str
  require : List Str
  replace : List ModReplaceM
deriving DecidableEq, Repr

/-- `stripPackageQuotes` from the source: trim one trailing then one
leading double quote. -/
def stripPackageQuotes (p : Str) : Str :=
  goTrimPfx (goTrimSfx p (str "\"")) (str "\"")

/-- The directory recorded for a local replace directive: an absolute
replacement path verbatim, a relative one joined to the module root. -/
def replaceDirFor (dir : Str) (r : ModReplaceM) : Str :=
  if goHasPfx r.newPath (str "/") then r.newPath else goFilepathJoin dir r.newPath

/-- The `packages` map built by `parseModule`: own path ↦ module root,
then requires ↦ remote sentinel, then local replaces ↦ directory. -/
def packagesOfModfile (mf : ModFileM) (dir : Str) : List (Str × Str) :=
  let m0 := insertKV [] mf.modulePath dir
  let m1 := mf.require.foldl (fun m rp => insertKV m rp []) m0
  mf.replace.foldl
    (fun m r =>
      if r.newVersion ≠ [] then m
      else insertKV m (stripPackageQuotes r.oldPath) (replaceDirFor dir r)) m1

lemma lookup_insertKV_self (m : List (Str × Str)) (k v : Str) :
    List.lookup k (insertKV m k v) = some v := by
  unfold insertKV
  induction m with
  | nil => simp [List.lookup]
  | cons hd tl ih =>
    by_cases hk : hd.1 = k
    · rw [List.filter_cons_of_neg (by simpa using hk)]
      exact ih
    · rw [List.filter_cons_of_pos (by simpa using hk)]
      rw [List.cons_append]
      have hb : (k == hd.1) = false := beq_eq_false_iff_ne.mpr (fun he => hk he.symm)
      simp only [List.lookup, hb]
      exact ih

lemma lookup_insertKV_other (m : List (Str × Str)) (k v k' : Str) (h : k' ≠ k) :
    List.lookup k' (insertKV m k v) = List.lookup k' m := by
  unfold insertKV
  induction m with
  | nil =>
    have hb : (k' == k) = false := beq_eq_false_iff_ne.mpr h
    simp [List.lookup, hb]
  | cons hd tl ih =>
    by_cases hk : hd.1 = k
    · rw [List.filter_cons_of_neg (by simpa using hk)]
      rw [ih]
      have hb : (k' == hd.1) = false := beq_eq_false_iff_ne.mpr (by rw [hk]; exact h)
      simp only [List.lookup, hb]
    · rw [List.filter_cons_of_pos (by simpa using hk)]
      rw [List.cons_append]
      by_cases hk' : (k' == hd.1) = true
      · simp only [List.lookup, hk']
      · have hb : (k' == hd.1) = false := by
          cases h2 : (k' == hd.1) with
          | true => exact absurd h2 hk'
          | false => rfl
        simp only [List.lookup, hb]
        exact ih

lemma lookup_fold_require (key : Str) (reqs : List Str)
    (hne : ∀ rp ∈ reqs, rp ≠ key) :
    ∀ m0 : List (Str × Str),
      List.lookup key (reqs.foldl (fun m rp => insertKV m rp []) m0) =
        List.lookup key m0 := by
  induction reqs with
  | nil => intro m0; rfl
  | cons rp rest ih =>
    intro m0
    rw [List.foldl_cons]
    rw [ih (fun x hx => hne x (List.mem_cons_of_mem rp hx))]
    exact lookup_insertKV_other m0 rp [] key (fun he =>
      hne rp (List.mem_cons_self rp rest) he.symm)

lemma lookup_fold_replace (key dir : Str) (reps : List ModReplaceM)
    (hne : ∀ r ∈ reps, r.newVersion = [] → stripPackageQuotes r.oldPath ≠ key) :
    ∀ m0 : List (Str × Str),
      List.lookup key
          (reps.foldl
            (fun m r =>
              if r.newVersion ≠ [] then m
              else insertKV m (stripPackageQuotes r.oldPath) (replaceDirFor dir r)) m0) =
        List.lookup key m0 := by
  induction reps with
  | nil => intro m0; rfl
  | cons r rest ih =>
    intro m0
    rw [List.foldl_cons]
    rw [ih (fun x hx hv => hne x (List.mem_cons_of_mem r hx) hv)]
    by_cases hv : r.newVersion = []
    · rw [if_neg (by simpa using hv)]
      exact lookup_insertKV_other m0 _ _ key (hne r (List.mem_cons_self r rest) hv).symm
    · rw [if_pos (by simpa using hv)]

/-- C6 (counterexample): a manifest that requires its own declared path
is accepted by the parser, and `parseModule` then records the remote
sentinel for the declared path, so `packages[declaredPath]` is the
empty string rather than the module root. -/
theorem parseModule_root_invariant_counterexample :
    List.lookup (str "example.com/m")
        (packagesOfModfile ⟨str "example.com/m", [str "example.com/m"], []⟩ (str "/src/m")) =
      some [] ∧ (str "/src/m" : Str) ≠ [] := by
  constructor
  · decide
  · decide

/-- C6 (amended): `packages[declaredPath]` equals the module root for
every parsed manifest whose require and replace directives do not
mention the module's own declared path; a self-referential require or
local replace overwrites the root binding instead. -/
theorem parseModule_root_invariant_amended (mf : ModFileM) (dir : Str)
    (hreq : ∀ rp ∈ mf.require, rp ≠ mf.modulePath)
    (hrep : ∀ r ∈ mf.replace, r.newVersion = [] →
      stripPackageQuotes r.oldPath ≠ mf.modulePath) :
    List.lookup mf.modulePath (packagesOfModfile mf dir) = some dir := by
  unfold packagesOfModfile
  rw [lookup_fold_replace mf.modulePath dir mf.replace hrep]
  rw [lookup_fold_require mf.modulePath mf.require hreq]
  exact lookup_insertKV_self [] mf.modulePath dir

/-- Witness for the amended C6 theorem on a concrete manifest with an
ordinary require and local replace. -/
theorem parseModule_root_invariant_amended_witness :
    List.lookup (str "example.com/m")
        (packagesOfModfile
          ⟨str "example.com/m", [str "dep.io/x"], [⟨str "dep.io/x", str "../x", []⟩]⟩
          (str "/src/m")) =
      some (str "/src/m") :=
  parseModule_root_invariant_amended
    ⟨str "example.com/m", [str "dep.io/x"], [⟨str "dep.io/x", str "../x", []⟩]⟩
    (str "/src/m") (by decide) (by decide)

/-- C8: the binding recorded for the last local (version-less) replace
directive with a given source path: an absolute replacement target is
stored verbatim, a relative one is stored joined to the module root. -/
theorem parseModule_replace_directive_recorded (mf : ModFileM) (dir : Str)
    (pre post : List ModReplaceM) (r : ModReplaceM)
    (hsplit : mf.replace = pre ++ r :: post)
    (hlocal : r.newVersion = [])
    (hlast : ∀ r' ∈ post, r'.newVersion = [] →
      stripPackageQuotes r'.oldPath ≠ stripPackageQuotes r.oldPath) :
    List.lookup (stripPackageQuotes r.oldPath) (packagesOfModfile mf dir) =
      some (if goHasPfx r.newPath (str "/") then r.newPath
            else goFilepathJoin dir r.newPath) := by
  unfold packagesOfModfile
  rw [hsplit, List.foldl_append, List.foldl_cons]
  rw [lookup_fold_replace _ dir post hlast]
  rw [if_neg (by simpa using hlocal)]
  exact lookup_insertKV_self _ _ _

/-- Witness for C8: an absolute replacement stored verbatim, evaluated
on a concrete manifest (the relative case is exercised by the C6
witness's manifest). -/
theorem parseModule_replace_directive_recorded_witness :
    List.lookup (str "old.io/a")
        (packagesOfModfile
          ⟨str "m", [], [⟨str "old.io/a", str "/abs/x", []⟩, ⟨str "old.io/b", str "./s", []⟩]⟩
          (str "/root/m")) =
      some (str "/abs/x") := by
  have h := parseModule_replace_directive_recorded
    ⟨str "m", [], [⟨str "old.io/a", str "/abs/x", []⟩, ⟨str "old.io/b", str "./s", []⟩]⟩
    (str "/root/m") [] [⟨str "old.io/b", str "./s", []⟩] ⟨str "old.io/a", str "/abs/x", []⟩
    rfl rfl (by decide)
  exact h

/-!
## Cache retention (`cacheCleanup` / `updateCache`)

A package's cache directory is embedded as the list of its entries
(file name and modification time).  `cacheCleanupM` is `cacheCleanup`:
sort ascending by modification time and delete all but the newest
`keepCacheEntriesOnCleanup`.  `updateCacheM` is one successful
`updateCache`: cleanup under the lock, then the build writes the new
fingerprint entry (replacing a file of the same name if one existed).
With pairwise-distinct modification times the sort order is unique, so
`List.insertionSort` models `sort.Slice`.
-/

structure CacheEntryM where
  fileName : Str
  mtime : Nat
deriving DecidableEq, Repr

def keepCacheEntriesOnCleanup : Nat := 2

/-- `cacheCleanup`: sort the entries by modification time and remove all
but the `keepCacheEntriesOnCleanup` most recent. -/
def cacheCleanupM (l : List CacheEntryM) : List CacheEntryM :=
  (List.insertionSort (fun a b => a.mtime ≤ b.mtime) l).drop
    ((List.insertionSort (fun a b => a.mtime ≤ b.mtime) l).length - keepCacheEntriesOnCleanup)

/-- One successful `updateCache`: cleanup, then the build writes the new
entry at the fingerprint path. -/
def updateCacheM (l : List CacheEntryM) (e : CacheEntryM) : List CacheEntryM :=
  (cacheCleanupM l).filter (fun x => x.fileName ≠ e.fileName) ++ [e]

/-- C1 (counterexample): three successful updates with distinct
fingerprints and increasing modification times leave three entries in
the cache directory, not two — cleanup runs before the build writes, so
the bound is two previous entries plus the new one. -/
theorem cache_retention_counterexample :
    (List.foldl updateCacheM []
        [⟨str "f1", 1⟩, ⟨str "f2", 2⟩, ⟨str "f3", 3⟩]).length = 3 ∧
    (List.foldl updateCacheM []
        [⟨str "f1", 1⟩, ⟨str "f2", 2⟩, ⟨str "f3", 3⟩]).length ≠ 2 := by
  constructor
  · decide
  · decide

lemma cache_fold_go :
    ∀ (us acc : List CacheEntryM),
      (acc ++ us).Pairwise (fun a b => a.mtime < b.mtime) →
      ((acc ++ us).map CacheEntryM.fileName).Nodup →
      acc.length ≤ 3 →
      List.foldl updateCacheM acc us = (acc ++ us).drop ((acc ++ us).length - 3) := by
  intro us
  induction us with
  | nil =>
    intro acc _ _ hlen
    rw [List.foldl_nil, List.append_nil]
    rw [show acc.length - 3 = 0 by omega, List.drop_zero]
  | cons u us' ih =>
    intro acc hpw hnd hlen
    rw [List.foldl_cons]
    have haccpw : acc.Pairwise (fun a b => a.mtime < b.mtime) :=
      hpw.sublist (List.sublist_append_left acc (u :: us'))
    have hsorted : List.insertionSort (fun a b => a.mtime ≤ b.mtime) acc = acc :=
      List.Sorted.insertionSort_eq (haccpw.imp (fun h => Nat.le_of_lt h))
    have hfilter : (acc.drop (acc.length - 2)).filter (fun x => x.fileName ≠ u.fileName) =
        acc.drop (acc.length - 2) := by
      rw [List.filter_eq_self]
      intro x hx
      have hxa : x ∈ acc := List.mem_of_mem_drop hx
      rw [List.map_append, List.nodup_append] at hnd
      have hdisj := hnd.2.2
      simp only [decide_eq_true_iff]
      intro hxe
      exact hdisj (List.mem_map_of_mem _ hxa)
        (hxe ▸ List.mem_map_of_mem _ (List.mem_cons_self u us'))
    have hacc' : updateCacheM acc u = acc.drop (acc.length - 2) ++ [u] := by
      unfold updateCacheM cacheCleanupM keepCacheEntriesOnCleanup
      rw [hsorted, hfilter]
    rw [hacc']
    have hsub : List.Sublist ((acc.drop (acc.length - 2) ++ [u]) ++ us') (acc ++ u :: us') := by
      rw [List.append_assoc, List.singleton_append]
      exact List.Sublist.append (List.drop_sublist _ acc) (List.Sublist.refl _)
    have hih := ih (acc.drop (acc.length - 2) ++ [u])
      (hpw.sublist hsub)
      (List.Nodup.sublist (List.Sublist.map CacheEntryM.fileName hsub) hnd)
      (by
        simp only [List.length_append, List.length_drop, List.length_cons, List.length_nil]
        omega)
    rw [hih]
    have hrewrite : (acc.drop (acc.length - 2) ++ [u]) ++ us' =
        (acc ++ u :: us').drop (acc.length - 2) := by
      rw [List.append_assoc, List.singleton_append]
      rw [List.drop_append_of_le_length (by omega)]
    rw [hrewrite, List.drop_drop]
    congr 1
    have h1 : (List.drop (acc.length - 2) (acc ++ u :: us')).length
        = (acc ++ u :: us').length - (acc.length - 2) := by
      rw [List.length_drop]
    have h2 : (acc ++ u :: us').length = acc.length + (us'.length + 1) := by
      rw [List.length_append, List.length_cons]
    omega

/-- C1 (amended): after `N > 2` successful updates for one package with
distinct fingerprints and strictly increasing modification times,
exactly **three** entries remain: the new entry plus the two most
recently modified previous ones — i.e. the three most recent updates. -/
theorem cache_retention_bound (us : List CacheEntryM)
    (hmt : us.Pairwise (fun a b => a.mtime < b.mtime))
    (hnames : (us.map CacheEntryM.fileName).Nodup)
    (hlen : 3 ≤ us.length) :
    List.foldl updateCacheM [] us = us.drop (us.length - 3) ∧
    (List.foldl updateCacheM [] us).length = 3 := by
  have h := cache_fold_go us [] (by simpa using hmt) (by simpa using hnames)
    (by simp)
  simp only [List.nil_append] at h
  refine ⟨h, ?_⟩
  rw [h, List.length_drop]
  omega

/-- Witness for the amended C1 theorem: four updates leave exactly the
last three entries. -/
theorem cache_retention_bound_witness :
    List.foldl updateCacheM []
        [⟨str "f1", 1⟩, ⟨str "f2", 2⟩, ⟨str "f3", 3⟩, ⟨str "f4", 4⟩] =
      [⟨str "f2", 2⟩, ⟨str "f3", 3⟩, ⟨str "f4", 4⟩] := by
  have h := (cache_retention_bound
    [⟨str "f1", 1⟩, ⟨str "f2", 2⟩, ⟨str "f3", 3⟩, ⟨str "f4", 4⟩]
    (by decide) (by decide) (by decide)).1
  exact h

/-!
## SHA-256 and the fingerprint (`checksum`)

`checksum` serializes `[filesChecksums, compilerFlags, compilerEnv]`
with `encoding/json` (map keys emitted in sorted order, HTML-escaping
on, as `json.Marshal` does) and hashes the bytes with SHA-256.  Both
are implemented here executably: 32-bit words are `Nat` reduced with
`% 2^32`.
-/

def w32 (n : Nat) : Nat := n % 4294967296

def rotr32 (x n : Nat) : Nat := w32 ((x >>> n) ||| (x <<< (32 - n)))

def sha256K : List Nat :=
  [1116352408, 1899447441, 3049323471, 3921009573,
   961987163, 1508970993, 2453635748, 2870763221,
   3624381080, 310598401, 607225278, 1426881987,
   1925078388, 2162078206, 2614888103, 3248222580,
   3835390401, 4022224774, 264347078, 604807628,
   770255983, 1249150122, 1555081692, 1996064986,
   2554220882, 2821834349, 2952996808, 3210313671,
   3336571891, 3584528711, 113926993, 338241895,
   666307205, 773529912, 1294757372, 1396182291,
   1695183700, 1986661051, 2177026350, 2456956037,
   2730485921, 2820302411, 3259730800, 3345764771,
   3516065817, 3600352804, 4094571909, 275423344,
   430227734, 506948616, 659060556, 883997877,
   958139571, 1322822218, 1537002063, 1747873779,
   1955562222, 2024104815, 2227730452, 2361852424,
   2428436474, 2756734187, 3204031479, 3329325298]

def sha256H0 : List Nat :=
  [1779033703, 3144134277, 1013904242, 2773480762,
   1359893119, 2600822924, 528734635, 1541459225]

/-- SHA-256 padding: `0x80`, zeros to 56 mod 64, 64-bit big-endian bit length. -/
def sha256Pad (msg : List Nat) : List Nat :=
  let L := msg.length
  let k := (119 - (L % 64)) % 64
  let bl := 8 * L
  msg ++ [0x80] ++ List.replicate k 0 ++
    [(bl >>> 56) % 256, (bl >>> 48) % 256, (bl >>> 40) % 256, (bl >>> 32) % 256,
     (bl >>> 24) % 256, (bl >>> 16) % 256, (bl >>> 8) % 256, bl % 256]

def bytesToWords : List Nat → List Nat
  | a :: b :: c :: d :: rest => (a * 16777216 + b * 65536 + c * 256 + d) :: bytesToWords rest
  | _ => []

/-- Group a word list into 16-word blocks; the first argument is fuel,
always called with the list length (one chunk consumes 16 words, so the
length bounds the number of chunks). -/
def wordChunks : Nat → List Nat → List (List Nat)
  | 0, _ => []
  | _, [] => []
  | n + 1, ws => ws.take 16 :: wordChunks n (ws.drop 16)

def sigma0 (x : Nat) : Nat := rotr32 x 7 ^^^ rotr32 x 18 ^^^ (x >>> 3)

def sigma1 (x : Nat) : Nat := rotr32 x 17 ^^^ rotr32 x 19 ^^^ (x >>> 10)

/-- Extend a 16-word block to the 64-word message schedule. -/
def sha256Extend : Nat → List Nat → List Nat
  | 0, w => w
  | n + 1, w =>
    sha256Extend n (w ++ [w32 (sigma1 (w.getD (w.length - 2) 0) + w.getD (w.length - 7) 0 +
      sigma0 (w.getD (w.length - 15) 0) + w.getD (w.length - 16) 0)])

def sha256Compress (h : List Nat) (block : List Nat) : List Nat :=
  let w := sha256Extend 48 block
  let st := (List.zip sha256K w).foldl
    (fun (st : Nat × Nat × Nat × Nat × Nat × Nat × Nat × Nat) kw =>
      let a := st.1
      let b := st.2.1
      let c := st.2.2.1
      let d := st.2.2.2.1
      let e := st.2.2.2.2.1
      let f := st.2.2.2.2.2.1
      let g := st.2.2.2.2.2.2.1
      let hh := st.2.2.2.2.2.2.2
      let S1 := rotr32 e 6 ^^^ rotr32 e 11 ^^^ rotr32 e 25
      let ch := (e &&& f) ^^^ ((e ^^^ 4294967295) &&& g)
      let temp1 := w32 (hh + S1 + ch + kw.1 + kw.2)
      let S0 := rotr32 a 2 ^^^ rotr32 a 13 ^^^ rotr32 a 22
      let maj := (a &&& b) ^^^ (a &&& c) ^^^ (b &&& c)
      let temp2 := w32 (S0 + maj)
      (w32 (temp1 + temp2), a, b, c, w32 (d + temp1), e, f, g))
    (h.getD 0 0, h.getD 1 0, h.getD 2 0, h.getD 3 0,
     h.getD 4 0, h.getD 5 0, h.getD 6 0, h.getD 7 0)
  [w32 (h.getD 0 0 + st.1), w32 (h.getD 1 0 + st.2.1), w32 (h.getD 2 0 + st.2.2.1),
   w32 (h.getD 3 0 + st.2.2.2.1), w32 (h.getD 4 0 + st.2.2.2.2.1),
   w32 (h.getD 5 0 + st.2.2.2.2.2.1), w32 (h.getD 6 0 + st.2.2.2.2.2.2.1),
   w32 (h.getD 7 0 + st.2.2.2.2.2.2.2)]

def wordToBytes (x : Nat) : List Nat :=
  [(x >>> 24) % 256, (x >>> 16) % 256, (x >>> 8) % 256, x % 256]

/-- SHA-256 of a byte sequence, as 32 bytes. -/
def sha256Bytes (msg : List Nat) : List Nat :=
  (((wordChunks (bytesToWords (sha256Pad msg)).length
        (bytesToWords (sha256Pad msg))).foldl sha256Compress sha256H0).map
    wordToBytes).flatten

def hexDigit (n : Nat) : Char := (str "0123456789abcdef").getD n '0'

/-- `hex.EncodeToString`: two lowercase hex digits per byte. -/
def hexStrOfBytes (bs : List Nat) : Str :=
  (bs.map (fun b => [hexDigit (b / 16), hexDigit (b % 16)])).flatten

/-- UTF-8 encoding of one character. -/
def utf8EncodeChar (c : Char) : List Nat :=
  let n := c.toNat
  if n < 128 then [n]
  else if n < 2048 then [192 + n / 64, 128 + n % 64]
  else if n < 65536 then [224 + n / 4096, 128 + (n / 64) % 64, 128 + n % 64]
  else [240 + n / 262144, 128 + (n / 4096) % 64, 128 + (n / 64) % 64, 128 + n % 64]

def utf8Bytes (s : Str) : List Nat := (s.map utf8EncodeChar).flatten

/-- The SHA-256 hex digest of a string's bytes, as `addChecksum` and
`checksum` compute it. -/
def sha256Hex (s : Str) : Str := hexStrOfBytes (sha256Bytes (utf8Bytes s))

/-- `encoding/json` string escaping with the default HTML escaping, one
character at a time. -/
def jsonEscapeChar (c : Char) : Str :=
  if c = '"' then ['\\', '"']
  else if c = '\\' then ['\\', '\\']
  else if c = '\n' then ['\\', 'n']
  else if c = '\r' then ['\\', 'r']
  else if c = '\t' then ['\\', 't']
  else if c.toNat < 32 then str "\\u00" ++ [hexDigit (c.toNat / 16), hexDigit (c.toNat % 16)]
  else if c = '<' then str "\\u003c"
  else if c = '>' then str "\\u003e"
  else if c = '&' then str "\\u0026"
  else if c.toNat = 0x2028 then str "\\u2028"
  else if c.toNat = 0x2029 then str "\\u2029"
  else [c]

def jsonStr (s : Str) : Str := '"' :: (s.map jsonEscapeChar).flatten ++ ['"']

def sortStrs (l : List Str) : List Str := List.insertionSort (· ≤ ·) l

def lookupD (m : List (Str × Str)) (k : Str) : Str := (List.lookup k m).getD []

/-- `json.Marshal` of a `map[string]string`: keys in sorted order. -/
def jsonObj (m : List (Str × Str)) : Str :=
  '\x7b' :: List.intercalate [',']
      ((sortStrs (m.map Prod.fst)).map (fun k => jsonStr k ++ [':'] ++ jsonStr (lookupD m k)))
    ++ ['\x7d']

/-- `json.Marshal` of a `[]string`, in slice order. -/
def jsonArr (l : List Str) : Str :=
  '[' :: List.intercalate [','] (l.map jsonStr) ++ [']']

/-- The canonical serialization hashed by `checksum`:
`[filesChecksums, compilerFlags, compilerEnv]`. -/
def checksumSerialization (files : List (Str × Str)) (flags : List Str)
    (env : List (Str × Str)) : Str :=
  '[' :: (jsonObj files ++ [','] ++ jsonArr flags ++ [','] ++ jsonObj env) ++ [']']

/-- `checksum`: the hex SHA-256 digest of the canonical serialization. -/
def checksumM (files : List (Str × Str)) (flags : List Str)
    (env : List (Str × Str)) : Str :=
  sha256Hex (checksumSerialization files flags env)

lemma lookup_perm_eq : ∀ {m m' : List (Str × Str)}, m.Perm m' →
    (m.map Prod.fst).Nodup → ∀ k : Str, List.lookup k m = List.lookup k m' := by
  intro m m' hp
  induction hp with
  | nil => intro _ _; rfl
  | cons x h ih =>
    intro hnd k
    obtain ⟨xk, xv⟩ := x
    rw [List.map_cons, List.nodup_cons] at hnd
    by_cases hk : (k == xk) = true
    · simp only [List.lookup, hk]
    · have hb : (k == xk) = false := by
        cases h2 : (k == xk) with
        | true => exact absurd h2 hk
        | false => rfl
      simp only [List.lookup, hb]
      exact ih hnd.2 k
  | swap x y l =>
    intro hnd k
    obtain ⟨xk, xv⟩ := x
    obtain ⟨yk, yv⟩ := y
    rw [List.map_cons, List.map_cons, List.nodup_cons] at hnd
    have hxy : yk ≠ xk := by
      intro he
      exact hnd.1 (by rw [he]; exact List.mem_cons_self _ _)
    by_cases hky : (k == yk) = true
    · have hkx : (k == xk) = false := by
        apply beq_eq_false_iff_ne.mpr
        rw [eq_of_beq hky]
        exact hxy
      simp only [List.lookup, hky, hkx]
    · have hbky : (k == yk) = false := by
        cases h2 : (k == yk) with
        | true => exact absurd h2 hky
        | false => rfl
      by_cases hkx : (k == xk) = true
      · simp only [List.lookup, hbky, hkx]
      · have hbkx : (k == xk) = false := by
          cases h2 : (k == xk) with
          | true => exact absurd h2 hkx
          | false => rfl
        simp only [List.lookup, hbky, hbkx]
  | trans h1 h2 ih1 ih2 =>
    intro hnd k
    rw [ih1 hnd k]
    exact ih2 ((h1.map Prod.fst).nodup hnd) k

lemma jsonObj_perm {m m' : List (Str × Str)} (hnd : (m.map Prod.fst).Nodup)
    (hp : m.Perm m') : jsonObj m = jsonObj m' := by
  unfold jsonObj
  have hkeys : sortStrs (m.map Prod.fst) = sortStrs (m'.map Prod.fst) := by
    unfold sortStrs
    refine List.eq_of_perm_of_sorted ?_ (List.sorted_insertionSort _ _)
      (List.sorted_insertionSort _ _)
    exact (List.perm_insertionSort _ _).trans
      ((hp.map Prod.fst).trans (List.perm_insertionSort _ _).symm)
  rw [← hkeys]
  have hmap : (sortStrs (m.map Prod.fst)).map
        (fun k => jsonStr k ++ [':'] ++ jsonStr (lookupD m k)) =
      (sortStrs (m.map Prod.fst)).map
        (fun k => jsonStr k ++ [':'] ++ jsonStr (lookupD m' k)) := by
    apply List.map_congr_left
    intro k _
    unfold lookupD
    rw [lookup_perm_eq hp hnd k]
  rw [hmap]

set_option maxRecDepth 40000 in
/-- C7: the fingerprint is deterministic and independent of the
representation order of the file-hash and environment maps (their keys
are serialized sorted), while permuting the build-flag list is
order-significant: a concrete flag swap changes the digest. -/
theorem checksum_deterministic_and_order_independent :
    (∀ (files files' env env' : List (Str × Str)) (flags : List Str),
        (files.map Prod.fst).Nodup → files.Perm files' →
        (env.map Prod.fst).Nodup → env.Perm env' →
        checksumM files flags env = checksumM files' flags env') ∧
    checksumM [(str "/m/a.go", str "h1")] [str "-race", str "-v"]
        [(str "GOOS", str "linux")] ≠
      checksumM [(str "/m/a.go", str "h1")] [str "-v", str "-race"]
        [(str "GOOS", str "linux")] := by
  constructor
  · intro files files' env env' flags hndf hpf hnde hpe
    unfold checksumM checksumSerialization
    rw [jsonObj_perm hndf hpf, jsonObj_perm hnde hpe]
  · decide

/-- Witness for C7: swapping the two map entries leaves the digest
unchanged on a concrete input. -/
theorem checksum_order_independent_witness :
    checksumM [(str "a", str "1"), (str "b", str "2")] [str "-v"] [(str "K", str "v")] =
      checksumM [(str "b", str "2"), (str "a", str "1")] [str "-v"] [(str "K", str "v")] :=
  checksum_deterministic_and_order_independent.1
    [(str "a", str "1"), (str "b", str "2")] [(str "b", str "2"), (str "a", str "1")]
    [(str "K", str "v")] [(str "K", str "v")] [str "-v"]
    (by decide) (List.Perm.swap (str "b", str "2") (str "a", str "1") [])
    (by decide) (List.Perm.refl _)

/-!
## File system model

The file system is a finite tree.  Paths are absolute strings;
`fsGet` resolves a path by segments.  `other` stands for the irregular
entries (`de.Type() != 0` in the walk loop, non-regular `Lstat` modes in
the embed resolver).  `os.ReadDir` returns entries sorted by name, which
`readDirSorted` reproduces.
-/

inductive FsNode where
  | file (content : Str)
  | dir (entries : List (Str × FsNode))
  | other

def fsFind : FsNode → List Str → Option FsNode
  | node, [] => some node
  | FsNode.dir es, seg :: rest =>
    match List.lookup seg es with
    | some child => fsFind child rest
    | none => none
  | _, _ :: _ => none

def fsGet (root : FsNode) (p : Str) : Option FsNode := fsFind root (splitSegs p)

def readDirSorted (es : List (Str × FsNode)) : List (Str × FsNode) :=
  List.insertionSort (fun a b => a.1 ≤ b.1) es

def fsIsDir : FsNode → Bool
  | FsNode.dir _ => true
  | _ => false

def fsIsFile : FsNode → Bool
  | FsNode.file _ => true
  | _ => false

/-- Errors of the traced execution.  `doubleHash` stands for the panic
in `addChecksum` ("a checksum has been requested twice"): the Go
program aborts there; the model surfaces it as a distinguished error so
reachability can be stated.  `notExist` is an error satisfying
`os.IsNotExist`. -/
inductive GErr where
  | notExist (p : Str)
  | doubleHash (p : Str)
  | fatal (msg : Str)
deriving DecidableEq, Repr

/-- `parseContext` from the source: accumulated file checksums, the set
of already-parsed package directories, and the module cache. -/
structure ParseCtxM where
  checksums : List (Str × Str)
  packages : List Str
  modules : List (Str × ModuleInfoM)
deriving DecidableEq, Repr

/-- Go map assignment for the module cache. -/
def insertKVMod (m : List (Str × ModuleInfoM)) (k : Str) (v : ModuleInfoM) :
    List (Str × ModuleInfoM) :=
  m.filter (fun p => p.1 ≠ k) ++ [(k, v)]

/-- `addChecksum`: panic (modelled as `doubleHash`) if the file was
already hashed, then open and hash its contents. -/
def addChecksumM (root : FsNode) (pc : ParseCtxM) (filename : Str) :
    Except GErr ParseCtxM :=
  if (List.lookup filename pc.checksums).isSome then
    Except.error (GErr.doubleHash filename)
  else
    match fsGet root filename with
    | some (FsNode.file content) =>
      Except.ok { pc with checksums := pc.checksums ++ [(filename, sha256Hex content)] }
    | some _ => Except.error (GErr.fatal (str "read failed"))
    | none => Except.error (GErr.notExist filename)

/-- Modelled from the spec: the external Go source parser and manifest
parser the program delegates to.  `parseModFile` is `modfile.Parse`
reduced to the fields `parseModule` reads; `parseGoSource` is
`go/parser.ParseFile` reduced to what `parsePackage` reads: the quote
-delimited import literals (`imp.Path.Value`) and the comment texts. -/
structure GoOracles where
  parseModFile : Str → Option ModFileM
  parseGoSource : Str → Option (List Str × List Str)

/-- `parseModule`: read and parse `go.mod`, build the packages map
(`packagesOfModfile`), then hash `go.mod` and, when present, `go.sum`
(its absence is the one tolerated error). -/
def parseModuleM (oc : GoOracles) (root : FsNode) (pc : ParseCtxM) (dir : Str) :
    Except GErr (ParseCtxM × ModuleInfoM) :=
  match fsGet root (goFilepathJoin dir (str "go.mod")) with
  | some (FsNode.file contents) =>
    match oc.parseModFile contents with
    | none => Except.error (GErr.fatal (str "failed to parse module"))
    | some mf =>
      let out : ModuleInfoM := ⟨mf.modulePath, packagesOfModfile mf dir⟩
      match addChecksumM root pc (goFilepathJoin dir (str "go.mod")) with
      | Except.error e => Except.error e
      | Except.ok pc2 =>
        match addChecksumM root pc2 (goFilepathJoin dir (str "go.sum")) with
        | Except.ok pc3 => Except.ok (pc3, out)
        | Except.error (GErr.notExist _) => Except.ok (pc2, out)
        | Except.error e => Except.error e
  | _ => Except.error (GErr.fatal (str "failed to parse module"))

/-- The climb loop of `findModule`: consult the cache, otherwise look
for `go.mod`, otherwise ascend; reaching `/` is fatal.  Fuel is the
directory depth, which bounds the climb. -/
def findModuleLoop (oc : GoOracles) (root : FsNode) :
    Nat → ParseCtxM → Str → List Str →
    Except GErr (ParseCtxM × ModuleInfoM × List Str)
  | 0, _, _, _ => Except.error (GErr.fatal (str "fuel"))
  | fuel + 1, pc, dir, uncached =>
    match List.lookup dir pc.modules with
    | some info => Except.ok (pc, info, uncached)
    | none =>
      match fsGet root (goFilepathJoin dir (str "go.mod")) with
      | some _ =>
        match parseModuleM oc root pc dir with
        | Except.error e => Except.error e
        | Except.ok (pc2, info) => Except.ok (pc2, info, uncached ++ [dir])
      | none =>
        let parent := goFilepathDir dir
        if parent = str "/" then Except.error (GErr.fatal (str "no go.mod upwards"))
        else findModuleLoop oc root fuel pc parent (uncached ++ [dir])

/-- `findModule`: run the climb loop, then backfill every traversed
directory into the module cache. -/
def findModuleM (oc : GoOracles) (root : FsNode) (pc : ParseCtxM) (dir : Str) :
    Except GErr (ParseCtxM × ModuleInfoM) :=
  match findModuleLoop oc root ((splitSegs dir).length + 1) pc dir [] with
  | Except.error e => Except.error e
  | Except.ok (pc2, info, uncached) =>
    Except.ok
      ({ pc2 with modules := uncached.foldl (fun m d => insertKVMod m d info) pc2.modules },
        info)

/-!
## `parseGoEmbed` — the embed directive tokenizer

A faithful translation of the tokenizer copied into `embed.go` from the
Go toolchain: unquoted space-separated tokens, back-quoted tokens, and
double-quoted tokens put through `strconv.Unquote`.  The fuel is the
remaining argument length, which strictly decreases every iteration.
-/

/-- `unicode.IsSpace`: Go's White_Space property. -/
def isSpaceGo (c : Char) : Bool :=
  c = ' ' || c = '\t' || c = '\n' || c.toNat = 11 || c.toNat = 12 || c = '\r' ||
  c.toNat = 0x85 || c.toNat = 0xa0 || c.toNat = 0x1680 ||
  (0x2000 ≤ c.toNat && c.toNat ≤ 0x200a) ||
  c.toNat = 0x2028 || c.toNat = 0x2029 || c.toNat = 0x202f ||
  c.toNat = 0x205f || c.toNat = 0x3000

/-- `strings.TrimSpace`. -/
def trimSpaceGo (s : Str) : Str :=
  ((s.dropWhile isSpaceGo).reverse.dropWhile isSpaceGo).reverse

/-- Modelled from the spec: `strconv.Unquote` (external) on the interior
of a double-quoted token, for the standard single-character escapes; the
rarer numeric escapes are treated as invalid, which only narrows the
accepted directive syntax. -/
def unquoteInner : Nat → Str → Option Str
  | _, [] => some []
  | 0, _ => none
  | f + 1, '\\' :: c :: rest =>
    let esc : Option Char :=
      if c = 'n' then some '\n'
      else if c = 't' then some '\t'
      else if c = 'r' then some '\r'
      else if c = '\\' then some '\\'
      else if c = '"' then some '"'
      else none
    match esc with
    | none => none
    | some e => (unquoteInner f rest).map (e :: ·)
  | _ + 1, '\\' :: [] => none
  | _ + 1, '"' :: _ => none
  | f + 1, c :: rest => (unquoteInner f rest).map (c :: ·)

def unquoteGo (s : Str) : Option Str :=
  match s with
  | '"' :: rest =>
    if rest ≠ [] ∧ rest.getLast? = some '"' then unquoteInner rest.length rest.dropLast
    else none
  | _ => none

/-- Position (counting from the start of the quoted token) of the
closing unescaped double quote, scanning as the `'"'` case of
`parseGoEmbed` does (a backslash skips the next character). -/
def findCloseQuoteIdx : Str → Nat → Option Nat
  | [], _ => none
  | '\\' :: [], _ => none
  | '\\' :: _ :: rest, i => findCloseQuoteIdx rest (i + 2)
  | '"' :: _, i => some i
  | _ :: rest, i => findCloseQuoteIdx rest (i + 1)

def parseGoEmbedLoop : Nat → Str → Except GErr (List Str)
  | 0, _ => Except.error (GErr.fatal (str "fuel"))
  | fuel + 1, args0 =>
    match trimSpaceGo args0 with
    | [] => Except.ok []
    | a :: rest =>
      let pr : Except GErr (Str × Str) :=
        if a = '`' then
          match rest.findIdx? (fun c => c = '`') with
          | none => Except.error (GErr.fatal (str "invalid quoted string in go:embed"))
          | some i => Except.ok (rest.take i, rest.drop (i + 1))
        else if a = '"' then
          match findCloseQuoteIdx rest 1 with
          | none => Except.error (GErr.fatal (str "invalid quoted string in go:embed"))
          | some i =>
            match unquoteGo ((a :: rest).take (i + 1)) with
            | none => Except.error (GErr.fatal (str "invalid quoted string in go:embed"))
            | some q => Except.ok (q, (a :: rest).drop (i + 1))
        else
          match (a :: rest).findIdx? isSpaceGo with
          | some i => Except.ok ((a :: rest).take i, (a :: rest).drop i)
          | none => Except.ok (a :: rest, [])
      match pr with
      | Except.error e => Except.error e
      | Except.ok (path, remaining) =>
        match remaining with
        | [] => (parseGoEmbedLoop fuel remaining).map (path :: ·)
        | r :: _ =>
          if isSpaceGo r then (parseGoEmbedLoop fuel remaining).map (path :: ·)
          else Except.error (GErr.fatal (str "invalid quoted string in go:embed"))

/-- `parseGoEmbed` from `embed.go`. -/
def parseGoEmbedM (args : Str) : Except GErr (List Str) :=
  parseGoEmbedLoop (args.length + 1) args

/-!
## `path.Match`

A character-level translation of Go's `path.Match` (used via
`filepath.Glob` and for the embed pattern validity check), including the
modern behavior of validating the remainder of the pattern before a
`false` result.  `Except Unit` carries `ErrBadPattern`.  Fuel arguments
bound loops that consume the pattern (or the name) one character at a
time.
-/

/-- Leading `*`s of a chunk. -/
def dropStars : Str → Bool × Str
  | '*' :: rest =>
    let r := dropStars rest
    (true, r.2)
  | p => (false, p)

/-- The scan of `scanChunk`: cut the pattern at the next top-level `*`. -/
def chunkSplit : Bool → Str → Str × Str
  | _, [] => ([], [])
  | inrange, c :: rest =>
    if c = '\\' then
      match rest with
      | [] => ([c], [])
      | d :: rest2 =>
        let r := chunkSplit inrange rest2
        (c :: d :: r.1, r.2)
    else if c = '[' then
      let r := chunkSplit true rest
      (c :: r.1, r.2)
    else if c = ']' then
      let r := chunkSplit false rest
      (c :: r.1, r.2)
    else if c = '*' && !inrange then ([], c :: rest)
    else
      let r := chunkSplit inrange rest
      (c :: r.1, r.2)

def scanChunk (pattern : Str) : Bool × Str × Str :=
  let sp := dropStars pattern
  let cr := chunkSplit false sp.2
  (sp.1, cr.1, cr.2)

/-- `getEsc`: one (possibly escaped) range endpoint of a character class. -/
def getEsc : Str → Except Unit (Char × Str)
  | [] => Except.error ()
  | c :: rest =>
    if c = '-' ∨ c = ']' then Except.error ()
    else if c = '\\' then
      match rest with
      | [] => Except.error ()
      | d :: rest2 => if rest2 = [] then Except.error () else Except.ok (d, rest2)
    else if rest = [] then Except.error ()
    else Except.ok (c, rest)

/-- The range-parsing loop of the `[` case of `matchChunk`. -/
def matchRangesM : Nat → Str → Char → Bool → Nat → Except Unit (Str × Bool)
  | 0, _, _, _, _ => Except.error ()
  | fuel + 1, chunk, r, m, nrange =>
    match chunk with
    | ']' :: rest =>
      if nrange > 0 then Except.ok (rest, m) else Except.error ()
    | _ =>
      match getEsc chunk with
      | Except.error e => Except.error e
      | Except.ok (lo, chunk2) =>
        let hiRes : Except Unit (Char × Str) :=
          match chunk2 with
          | '-' :: c2rest => getEsc c2rest
          | _ => Except.ok (lo, chunk2)
        match hiRes with
        | Except.error e => Except.error e
        | Except.ok (hi, chunk3) =>
          matchRangesM fuel chunk3 r (m || (lo ≤ r && r ≤ hi)) (nrange + 1)

/-- `matchChunk`: match a chunk at the head of `s`; after a failure the
chunk is still consumed so malformed patterns are detected. -/
def matchChunkM : Nat → Str → Str → Bool → Except Unit (Str × Bool)
  | 0, _, _, _ => Except.error ()
  | fuel + 1, chunk, s, failed0 =>
    match chunk with
    | [] => Except.ok (s, !failed0)
    | c :: chunkRest =>
      let failed := failed0 || s.isEmpty
      if c = '[' then
        let r := s.headD 'a'
        let s' := if failed then s else s.tail
        let nc : Bool × Str :=
          match chunkRest with
          | '^' :: cr => (true, cr)
          | _ => (false, chunkRest)
        match matchRangesM (nc.2.length + 1) nc.2 r false 0 with
        | Except.error e => Except.error e
        | Except.ok (chunk3, m) =>
          matchChunkM fuel chunk3 s' (failed || (m == nc.1))
      else if c = '?' then
        if failed then matchChunkM fuel chunkRest s failed
        else matchChunkM fuel chunkRest s.tail (s.headD 'x' = '/')
      else if c = '\\' then
        match chunkRest with
        | [] => Except.error ()
        | d :: chunkRest2 =>
          if failed then matchChunkM fuel chunkRest2 s failed
          else matchChunkM fuel chunkRest2 s.tail (!(s.headD 'x' = d))
      else
        if failed then matchChunkM fuel chunkRest s failed
        else matchChunkM fuel chunkRest s.tail (!(s.headD 'x' = c))

/-- The star-retry loop of `Match`: try the chunk at every later
position of the name, not crossing `/`. -/
def starLoopM (chunk rest : Str) : Str → Except Unit (Option Str)
  | [] => Except.ok none
  | c :: nameRest =>
    if c = '/' then Except.ok none
    else
      match matchChunkM (chunk.length + 1) chunk nameRest false with
      | Except.error e => Except.error e
      | Except.ok (t, ok) =>
        if ok && (!rest.isEmpty || t.isEmpty) then Except.ok (some t)
        else starLoopM chunk rest nameRest

/-- The trailing validation loop of `Match`: check the rest of the
pattern is well-formed before returning a non-match. -/
def validateChunks : Nat → Str → Except Unit Unit
  | 0, _ => Except.error ()
  | fuel + 1, pattern =>
    if pattern = [] then Except.ok ()
    else
      let scr := scanChunk pattern
      match matchChunkM (scr.2.1.length + 1) scr.2.1 [] false with
      | Except.error e => Except.error e
      | Except.ok _ => validateChunks fuel scr.2.2

def goMatchM : Nat → Str → Str → Except Unit Bool
  | 0, _, _ => Except.error ()
  | fuel + 1, pattern, name =>
    if pattern = [] then Except.ok name.isEmpty
    else
      let scr := scanChunk pattern
      let star := scr.1
      let chunk := scr.2.1
      let rest := scr.2.2
      if star && chunk.isEmpty then Except.ok (!name.contains '/')
      else
        match matchChunkM (chunk.length + 1) chunk name false with
        | Except.error e => Except.error e
        | Except.ok (t, ok) =>
          if ok && (t.isEmpty || !rest.isEmpty) then goMatchM fuel rest t
          else if star then
            match starLoopM chunk rest name with
            | Except.error e => Except.error e
            | Except.ok (some t2) => goMatchM fuel rest t2
            | Except.ok none => (validateChunks (rest.length + 1) rest).map (fun _ => false)
          else (validateChunks (rest.length + 1) rest).map (fun _ => false)

/-- `path.Match pattern name`. -/
def pathMatch (pattern name : Str) : Except Unit Bool :=
  goMatchM (pattern.length + 1) pattern name

/-!
## `filepath.Glob` and `resolveEmbed`

`filepath.Glob(pkgdir + "/" + glob)` with the package directory
glob-quoted is, extensionally, a per-segment descent of the pattern
under the package directory, matching entry names in sorted order with
`path.Match` — names contain no separator, and the embed validity check
has already ruled out `.` and `..` segments.  `resolveEmbedM` then
translates the per-pattern loop of `resolveEmbed`: module-boundary and
name checks on every matched path, a filtered recursive walk for
directory matches (zero eligible files is fatal), `no matching files
found` for a pattern whose filtered list is empty, and finally the
sorted, deduplicated union of all matches.  The `pmap` return value is
dropped: the caller ignores it.
-/

def globSegsM (root : FsNode) : Nat → FsNode → Str → List Str → Except Unit (List Str)
  | 0, _, _, _ => Except.error ()
  | fuel + 1, node, curPath, segs =>
    match segs with
    | [] => Except.ok [curPath]
    | seg :: rest =>
      match node with
      | FsNode.dir es =>
        (readDirSorted es).foldl
          (fun acc e =>
            match acc with
            | Except.error u => Except.error u
            | Except.ok ms =>
              match pathMatch seg e.1 with
              | Except.error u => Except.error u
              | Except.ok b =>
                if b then
                  match globSegsM root fuel e.2 (curPath ++ ['/'] ++ e.1) rest with
                  | Except.error u => Except.error u
                  | Except.ok ms2 => Except.ok (ms ++ ms2)
                else Except.ok ms)
          (Except.ok [])
      | _ => Except.ok []

/-- `filepath.Glob` of a slash pattern under the package directory. -/
def globM (root : FsNode) (pkgdir glob : Str) : Except Unit (List Str) :=
  match fsGet root pkgdir with
  | some node => globSegsM root ((glob.splitOn '/').length + 1) node pkgdir (glob.splitOn '/')
  | none => Except.ok []

/-- `fs.ValidPath`. -/
def fsValidPath (p : Str) : Bool :=
  if p = str "." then true
  else
    decide (p ≠ []) &&
      (p.splitOn '/').all (fun seg =>
        decide (seg ≠ []) && decide (seg ≠ str ".") && decide (seg ≠ str ".."))

/-- `validEmbedPattern` from `embed.go`. -/
def validEmbedPattern (p : Str) : Bool := decide (p ≠ str ".") && fsValidPath p

/-- Modelled from the spec: `module.CheckFilePath` (external) — names
invalid under the ecosystem's module file-path rules: empty, `.`/`..`,
containing control or otherwise forbidden characters, or ending in a
dot or space.  (Windows reserved device names are out of this model's
scope.) -/
def modCheckFilePathBad (name : Str) : Bool :=
  name.isEmpty ||
    name.any (fun c =>
      c.toNat < 32 || c.toNat = 127 ||
        (c = '"' || c = '*' || c = ':' || c = '<' || c = '>' || c = '?' || c = '\\' ||
          c = '|' || c = '/')) ||
    decide (name = str ".") || decide (name = str "..") ||
    name.getLast? = some '.' || name.getLast? = some ' '

/-- `isBadEmbedName` from `embed.go`: invalid module file names and
version-control metadata directories. -/
def isBadEmbedName (name : Str) : Bool :=
  if modCheckFilePathBad name then true
  else if name.isEmpty then true
  else if name = str ".bzr" || name = str ".hg" || name = str ".git" || name = str ".svn" then
    true
  else false

/-- The relative path of `p` under `pkgdir`
(`filepath.ToSlash(str.TrimFilePathPrefix(p, pkgdir))` on canonical
slash paths). -/
def relPathUnder (pkgdir p : Str) : Str := goTrimPfx p (pkgdir ++ ['/'])

/-- Go map assignment for the `have` map of `resolveEmbed`. -/
def insertKVNat (m : List (Str × Nat)) (k : Str) (v : Nat) : List (Str × Nat) :=
  m.filter (fun p => p.1 ≠ k) ++ [(k, v)]

/-- The module-boundary / name-validity loop run for each glob match:
walk from the matched path up to (but excluding) the package directory,
failing on a `go.mod` boundary, a non-directory ancestor, or a bad
name, and caching checked directories in `dirOK`. -/
def embedBoundaryCheck (root : FsNode) (pkgdir file : Str) :
    Nat → Str → List Str → Except GErr (List Str)
  | 0, _, _ => Except.error (GErr.fatal (str "fuel"))
  | fuel + 1, d, dirOK =>
    if decide (d.length > pkgdir.length + 1) && !(dirOK.contains d) then
      if (fsGet root (goFilepathJoin d (str "go.mod"))).isSome then
        Except.error (GErr.fatal (str "cannot embed: in different module"))
      else if decide (d ≠ file) && (match fsGet root d with
          | some n => !fsIsDir n
          | none => false) then
        Except.error (GErr.fatal (str "cannot embed: in non-directory"))
      else
        let dirOK2 := dirOK ++ [d]
        if isBadEmbedName (goFilepathBase d) then
          Except.error (GErr.fatal (str "cannot embed: invalid name"))
        else embedBoundaryCheck root pkgdir file fuel (goFilepathDir d) dirOK2
    else Except.ok dirOK

/-- The walk state of a directory match: eligible-file count, the
cross-pattern `have` map, and the per-pattern file list. -/
abbrev WalkSt := Nat × List (Str × Nat) × List Str

/-- Walk the sorted children of a directory in order. -/
def embedWalkList (walk : FsNode → Str → WalkSt → Except GErr WalkSt) (path : Str) :
    List (Str × FsNode) → WalkSt → Except GErr WalkSt
  | [], st => Except.ok st
  | (name, child) :: es, st =>
    match walk child (path ++ ['/'] ++ name) st with
    | Except.error e => Except.error e
    | Except.ok st2 => embedWalkList walk path es st2

/-- The body of the walk callback plus the recursive walk itself, for a
directory match of an embed pattern: prune bad/hidden names (unless
`all:`) and nested modules, count eligible regular files, and collect
their package-relative paths once per pattern. -/
def embedWalkM (root : FsNode) (file pkgdir : Str) (all : Bool) (pid : Nat) :
    Nat → FsNode → Str → WalkSt → Except GErr WalkSt
  | 0, _, _, _ => Except.error (GErr.fatal (str "walk fuel"))
  | fuel + 1, node, path, st =>
    let name := goFilepathBase path
    if decide (path ≠ file) &&
        (isBadEmbedName name ||
          ((goHasPfx name (str ".") || goHasPfx name (str "_")) && !all)) then
      Except.ok st
    else
      match node with
      | FsNode.dir es =>
        if (List.lookup (str "go.mod") es).isSome then Except.ok st
        else
          embedWalkList (embedWalkM root file pkgdir all pid fuel) path (readDirSorted es) st
      | FsNode.file _ =>
        let rel := relPathUnder pkgdir path
        let count := st.1 + 1
        if List.lookup rel st.2.1 ≠ some pid then
          Except.ok (count, insertKVNat st.2.1 rel pid, st.2.2 ++ [rel])
        else Except.ok (count, st.2.1, st.2.2)
      | FsNode.other => Except.ok st

/-- Count the eligible files a directory-match walk would find: the
count component of `embedWalkM`, independent of the `have` map and file
list (`none` models walk-fuel exhaustion). -/
def walkCountList (wc : FsNode → Str → Option Nat) (path : Str) :
    List (Str × FsNode) → Option Nat
  | [] => some 0
  | (name, child) :: es =>
    match wc child (path ++ ['/'] ++ name) with
    | none => none
    | some k =>
      match walkCountList wc path es with
      | none => none
      | some k2 => some (k + k2)

def walkCount (root : FsNode) (file : Str) (all : Bool) :
    Nat → FsNode → Str → Option Nat
  | 0, _, _ => none
  | fuel + 1, node, path =>
    let name := goFilepathBase path
    if decide (path ≠ file) &&
        (isBadEmbedName name ||
          ((goHasPfx name (str ".") || goHasPfx name (str "_")) && !all)) then
      some 0
    else
      match node with
      | FsNode.dir es =>
        if (List.lookup (str "go.mod") es).isSome then some 0
        else walkCountList (walkCount root file all fuel) path (readDirSorted es)
      | FsNode.file _ => some 1
      | FsNode.other => some 0

/-- The per-pattern match-processing loop of `resolveEmbed`: boundary
checks for every match, direct collection for regular files, the
eligible-files walk for directories (zero is fatal), an error for
irregular entries. -/
def processMatches (root : FsNode) (walkFuel : Nat) (pkgdir : Str) (all : Bool) (pid : Nat) :
    List Str → (List (Str × Nat) × List Str × List Str) →
    Except GErr (List (Str × Nat) × List Str × List Str)
  | [], st => Except.ok st
  | file :: ms, (hv, dirOK, list) =>
    let rel := relPathUnder pkgdir file
    match fsGet root file with
    | none => Except.error (GErr.notExist file)
    | some node =>
      match embedBoundaryCheck root pkgdir file ((splitSegs file).length + 1) file dirOK with
      | Except.error e => Except.error e
      | Except.ok dirOK2 =>
        match node with
        | FsNode.file _ =>
          if List.lookup rel hv ≠ some pid then
            processMatches root walkFuel pkgdir all pid ms
              (insertKVNat hv rel pid, dirOK2, list ++ [rel])
          else processMatches root walkFuel pkgdir all pid ms (hv, dirOK2, list)
        | FsNode.dir _ =>
          match embedWalkM root file pkgdir all pid walkFuel node file (0, hv, list) with
          | Except.error e => Except.error e
          | Except.ok (count, hv2, list2) =>
            if count = 0 then
              Except.error (GErr.fatal (str "cannot embed directory: contains no embeddable files"))
            else processMatches root walkFuel pkgdir all pid ms (hv2, dirOK2, list2)
        | FsNode.other => Except.error (GErr.fatal (str "cannot embed irregular file"))

/-- The glob of a pattern after stripping an `all:` qualifier, and the
qualifier itself. -/
def embedGlobOf (pattern : Str) : Str :=
  match goCutPfx pattern (str "all:") with
  | some rest => rest
  | none => pattern

def embedAllOf (pattern : Str) : Bool := (goCutPfx pattern (str "all:")).isSome

/-- The per-pattern loop of `resolveEmbed`: validity check, glob, match
processing, and the fatal `no matching files found` check. -/
def resolveEmbedPats (root : FsNode) (walkFuel : Nat) (pkgdir : Str) :
    List Str → Nat → List (Str × Nat) → List Str → Except GErr (List (Str × Nat))
  | [], _, hv, _ => Except.ok hv
  | pattern :: pats, pid0, hv, dirOK =>
    let pid := pid0 + 1
    let glob := embedGlobOf pattern
    let all := embedAllOf pattern
    let bad : Bool :=
      (match pathMatch glob [] with
        | Except.error _ => true
        | Except.ok _ => false) || !validEmbedPattern glob
    if bad then Except.error (GErr.fatal (str "invalid pattern syntax"))
    else
      match globM root pkgdir glob with
      | Except.error _ => Except.error (GErr.fatal (str "invalid pattern syntax"))
      | Except.ok mlist =>
        match processMatches root walkFuel pkgdir all pid mlist (hv, dirOK, []) with
        | Except.error e => Except.error e
        | Except.ok (hv2, dirOK2, list) =>
          if list.isEmpty then Except.error (GErr.fatal (str "no matching files found"))
          else resolveEmbedPats root walkFuel pkgdir pats pid hv2 dirOK2

/-- `resolveEmbed`: process every pattern, then return the sorted,
deduplicated file list (the keys of `have`). -/
def resolveEmbedM (root : FsNode) (walkFuel : Nat) (pkgdir : Str) (patterns : List Str) :
    Except GErr (List Str) :=
  match resolveEmbedPats root walkFuel pkgdir patterns 0 [] [] with
  | Except.error e => Except.error e
  | Except.ok hv => Except.ok (sortStrs (hv.map Prod.fst))

/-!
## `parsePackage`, `packageSourceChecksums` and `checksum`

The directory scan of `parsePackage`: regular files matching the
compiled-source name filter are hashed; `.go` files additionally yield
their imports (resolved, recursing into local packages) and pending
`//go:embed` patterns, which the embed resolver expands after the scan,
hashing the embedded files into the same checksum map.  Fuels: package
recursion depth, import-loop hops, embed-walk depth — each a bound on a
loop of the source that terminates on real inputs (or, for the import
loop, may not: see the C2 theorems).
-/

/-- The compiled-source extension list of `srcRE`
(`\.(go|s|S|c|cc|cpp|cxx|m|h|hh|hpp|hxx|f|F|for|f90)$`). -/
def srcExts : List Str :=
  [str "go", str "s", str "S", str "c", str "cc", str "cpp", str "cxx", str "m",
   str "h", str "hh", str "hpp", str "hxx", str "f", str "F", str "for", str "f90"]

def srcREMatch (name : Str) : Bool := srcExts.any (fun e => goHasSfx name ('.' :: e))

/-- `packageFile`: not a test file, not ignorable, and a compiled-source
extension. -/
def packageFileM (name : Str) : Bool :=
  if goHasSfx name (str "_test.go") then false
  else if goHasPfx name (str "_") || goHasPfx name (str ".") then false
  else srcREMatch name

/-- The full `resolveImport` loop over the real module cache: find the
owning module, take one `resolveStepGo` step, and follow hops.
`none` in the result means a remote import. -/
def resolveImportFull (oc : GoOracles) (root : FsNode) :
    Nat → ParseCtxM → Str → Str → Except GErr (ParseCtxM × Option Str)
  | 0, _, _, _ => Except.error (GErr.fatal (str "fuel"))
  | fuel + 1, pc, dir, importPath =>
    match findModuleM oc root pc dir with
    | Except.error e => Except.error e
    | Except.ok (pc2, mi) =>
      match resolveStepGo mi importPath with
      | ResolveStep.err => Except.error (GErr.fatal (str "package is outside of every module"))
      | ResolveStep.remote => Except.ok (pc2, none)
      | ResolveStep.localDir d => Except.ok (pc2, some d)
      | ResolveStep.hop d => resolveImportFull oc root fuel pc2 d importPath

/-- The import loop of `parsePackage`: skip the stdlib-like literals,
resolve the rest, and recurse (via `resolveDep`) into local results. -/
def processImports (resolveDep : ParseCtxM → Str → Except GErr ParseCtxM)
    (oc : GoOracles) (root : FsNode) (riFuel : Nat) (dir : Str) :
    List Str → ParseCtxM → Except GErr ParseCtxM
  | [], pc => Except.ok pc
  | impLit :: imps, pc =>
    if stdlibPackageREMatch impLit then
      processImports resolveDep oc root riFuel dir imps pc
    else
      match resolveImportFull oc root riFuel pc dir (stripPackageQuotes impLit) with
      | Except.error e => Except.error e
      | Except.ok (pc2, none) => processImports resolveDep oc root riFuel dir imps pc2
      | Except.ok (pc2, some depDir) =>
        match resolveDep pc2 depDir with
        | Except.error e => Except.error e
        | Except.ok pc3 => processImports resolveDep oc root riFuel dir imps pc3

/-- Collect the patterns of every `//go:embed ` comment. -/
def collectEmbedPatterns : List Str → Except GErr (List Str)
  | [] => Except.ok []
  | ctext :: cs =>
    match goCutPfx ctext (str "//go:embed ") with
    | some s =>
      match parseGoEmbedM s with
      | Except.error _ => Except.error (GErr.fatal (str "failed to parse go:embed comment"))
      | Except.ok pats => (collectEmbedPatterns cs).map (pats ++ ·)
    | none => collectEmbedPatterns cs

/-- The directory-entry loop of `parsePackage`, accumulating checksums
and pending embed patterns. -/
def processEntries (resolveDep : ParseCtxM → Str → Except GErr ParseCtxM)
    (oc : GoOracles) (root : FsNode) (riFuel : Nat) (dir : Str) :
    List (Str × FsNode) → ParseCtxM → List Str → Except GErr (ParseCtxM × List Str)
  | [], pc, pats => Except.ok (pc, pats)
  | (name, node) :: es, pc, pats =>
    if !fsIsFile node then processEntries resolveDep oc root riFuel dir es pc pats
    else if !packageFileM name then processEntries resolveDep oc root riFuel dir es pc pats
    else
      match addChecksumM root pc (goFilepathJoin dir name) with
      | Except.error e => Except.error e
      | Except.ok pc2 =>
        if goHasSfx name (str ".go") then
          match node with
          | FsNode.file content =>
            match oc.parseGoSource content with
            | none => Except.error (GErr.fatal (str "failed to parse go file"))
            | some (imports, comments) =>
              match processImports resolveDep oc root riFuel dir imports pc2 with
              | Except.error e => Except.error e
              | Except.ok pc3 =>
                match collectEmbedPatterns comments with
                | Except.error e => Except.error e
                | Except.ok newPats =>
                  processEntries resolveDep oc root riFuel dir es pc3 (pats ++ newPats)
          | _ => Except.error (GErr.fatal (str "read failed"))
        else processEntries resolveDep oc root riFuel dir es pc2 pats

/-- Hash the sorted embedded files into the checksum map. -/
def addChecksumList (root : FsNode) (dir : Str) :
    List Str → ParseCtxM → Except GErr ParseCtxM
  | [], pc => Except.ok pc
  | f :: fs, pc =>
    match addChecksumM root pc (goFilepathJoin dir f) with
    | Except.error e => Except.error e
    | Except.ok pc2 => addChecksumList root dir fs pc2

/-- The final stage of `parsePackage`: resolve the collected embed
patterns (propagating a failure wrapped, as the source does) and hash
every resulting file. -/
def embedChecksumPhase (root : FsNode) (walkFuel : Nat) (dir : Str) (pats : List Str)
    (pc : ParseCtxM) : Except GErr ParseCtxM :=
  match resolveEmbedM root walkFuel dir pats with
  | Except.error _ => Except.error (GErr.fatal (str "failed to resolve go:embed patterns"))
  | Except.ok files => addChecksumList root dir (sortStrs files) pc

/-- `parsePackage`: skip already-visited directories, resolve the
enclosing module (hashing its `go.mod`/`go.sum`), scan the directory
entries, then expand and hash the embed patterns. -/
def parsePackageM (oc : GoOracles) (root : FsNode) (walkFuel riFuel : Nat) :
    Nat → ParseCtxM → Str → Except GErr ParseCtxM
  | 0, _, _ => Except.error (GErr.fatal (str "fuel"))
  | fuel + 1, pc, dir =>
    if pc.packages.contains dir then Except.ok pc
    else
      let pc1 := { pc with packages := pc.packages ++ [dir] }
      match findModuleM oc root pc1 dir with
      | Except.error e => Except.error e
      | Except.ok (pc2, _) =>
        match fsGet root dir with
        | some (FsNode.dir es) =>
          match processEntries (parsePackageM oc root walkFuel riFuel fuel) oc root riFuel
              dir (readDirSorted es) pc2 [] with
          | Except.error e => Except.error e
          | Except.ok (pc3, pats) => embedChecksumPhase root walkFuel dir pats pc3
        | some _ => Except.error (GErr.fatal (str "read failed"))
        | none => Except.error (GErr.notExist dir)

/-- `packageSourceChecksums` for an absolute package directory: a fresh
context, one `parsePackage` run, and its checksum map. -/
def packageSourceChecksumsM (oc : GoOracles) (root : FsNode)
    (walkFuel riFuel pkgFuel : Nat) (dir : Str) : Except GErr (List (Str × Str)) :=
  match parsePackageM oc root walkFuel riFuel pkgFuel ⟨[], [], []⟩ dir with
  | Except.error e => Except.error e
  | Except.ok pc => Except.ok pc.checksums

/-- `checksum`: the fingerprint of a package directory, or the traced
failure — no digest is produced on any error. -/
def checksumGoM (oc : GoOracles) (root : FsNode) (walkFuel riFuel pkgFuel : Nat)
    (dir : Str) (flags : List Str) (env : List (Str × Str)) : Except GErr Str :=
  match packageSourceChecksumsM oc root walkFuel riFuel pkgFuel dir with
  | Except.error e => Except.error e
  | Except.ok files => Except.ok (checksumM files flags env)

/-!
## The double-hash panic is reachable (C4)

A one-module package whose only source file embeds *itself*:
`/m/a.go` contains a `//go:embed a.go` directive.  The source walk
hashes `/m/a.go` as a package file; the embed resolver then legally
matches `a.go` (it is a valid embed name) and the embed phase asks for
its checksum a second time — the branch `parsePackage` treats as an
internal-consistency violation (`panic` in `addChecksum`, surfaced by
the model as `GErr.doubleHash`).
-/

def c4Root : FsNode :=
  FsNode.dir [(str "m", FsNode.dir
    [(str "a.go", FsNode.file (str "package main\n//go:embed a.go\n")),
     (str "go.mod", FsNode.file (str "module m\n"))])]

def c4Oracles : GoOracles :=
  { parseModFile := fun c => if c = str "module m\n" then some ⟨str "m", [], []⟩ else none,
    parseGoSource := fun c =>
      if c = str "package main\n//go:embed a.go\n" then some ([], [str "//go:embed a.go"])
      else none }

set_option maxRecDepth 40000 in
/-- C4: the claim that no file is ever hashed twice — that the
double-hash internal-error branch of `addChecksum` is unreachable —
fails on the code: when an embed pattern matches a file the source walk
already hashed (here `a.go` embedding itself), `parsePackage` reaches
that branch and the program panics instead of producing a fingerprint. -/
theorem parsePackage_double_hash_reachable :
    parsePackageM c4Oracles c4Root 8 4 2 ⟨[], [], []⟩ (str "/m") =
      Except.error (GErr.doubleHash (str "/m/a.go")) := by decide

lemma embedWalkList_count
    (wErr : GErr)
    (walkM : FsNode → Str → WalkSt → Except GErr WalkSt)
    (wc : FsNode → Str → Option Nat)
    (hagree : ∀ (child : FsNode) (p : Str) (st : WalkSt),
      (wc child p = none → walkM child p st = Except.error wErr) ∧
      (∀ k, wc child p = some k →
        ∃ h2 l2, walkM child p st = Except.ok (st.1 + k, h2, l2))) :
    ∀ (es : List (Str × FsNode)) (path : Str) (st : WalkSt),
      (walkCountList wc path es = none →
        embedWalkList walkM path es st = Except.error wErr) ∧
      (∀ k, walkCountList wc path es = some k →
        ∃ h2 l2, embedWalkList walkM path es st = Except.ok (st.1 + k, h2, l2)) := by
  intro es
  induction es with
  | nil =>
    intro path st
    constructor
    · intro h
      simp [walkCountList] at h
    · intro k hk
      simp only [walkCountList] at hk
      injection hk with hk'
      subst hk'
      exact ⟨st.2.1, st.2.2, by simp [embedWalkList]⟩
  | cons e es ih =>
    intro path st
    obtain ⟨name, child⟩ := e
    constructor
    · intro h
      simp only [walkCountList] at h
      cases hwc : wc child (path ++ ['/'] ++ name) with
      | none =>
        have hw := (hagree child _ st).1 hwc
        simp only [embedWalkList]
        rw [hw]
      | some k1 =>
        rw [hwc] at h
        cases hrest : walkCountList wc path es with
        | none =>
          obtain ⟨h2, l2, hw⟩ := (hagree child _ st).2 k1 hwc
          simp only [embedWalkList]
          rw [hw]
          exact (ih path (st.1 + k1, h2, l2)).1 hrest
        | some k2 =>
          rw [hrest] at h
          cases h
    · intro k hk
      simp only [walkCountList] at hk
      cases hwc : wc child (path ++ ['/'] ++ name) with
      | none => rw [hwc] at hk; cases hk
      | some k1 =>
        rw [hwc] at hk
        cases hrest : walkCountList wc path es with
        | none => rw [hrest] at hk; cases hk
        | some k2 =>
          rw [hrest] at hk
          injection hk with hk'
          obtain ⟨h2, l2, hw⟩ := (hagree child _ st).2 k1 hwc
          obtain ⟨h3, l3, hw2⟩ := (ih path (st.1 + k1, h2, l2)).2 k2 hrest
          refine ⟨h3, l3, ?_⟩
          simp only [embedWalkList]
          rw [hw]
          show embedWalkList walkM path es (st.1 + k1, h2, l2) = Except.ok (st.1 + k, h3, l3)
          rw [hw2]
          show Except.ok (st.1 + k1 + k2, h3, l3) = Except.ok (st.1 + k, h3, l3)
          rw [show st.1 + k1 + k2 = st.1 + k from by omega]

lemma embedWalk_count (root : FsNode) (file pkgdir : Str) (all : Bool) (pid : Nat) :
    ∀ (fuel : Nat) (node : FsNode) (path : Str) (st : WalkSt),
      (walkCount root file all fuel node path = none →
        embedWalkM root file pkgdir all pid fuel node path st =
          Except.error (GErr.fatal (str "walk fuel"))) ∧
      (∀ k, walkCount root file all fuel node path = some k →
        ∃ h2 l2, embedWalkM root file pkgdir all pid fuel node path st =
          Except.ok (st.1 + k, h2, l2)) := by
  intro fuel
  induction fuel with
  | zero =>
    intro node path st
    constructor
    · intro _; rfl
    · intro k hk; cases hk
  | succ n ih =>
    intro node path st
    by_cases hskip : (decide (path ≠ file) &&
        (isBadEmbedName (goFilepathBase path) ||
          ((goHasPfx (goFilepathBase path) (str ".") ||
            goHasPfx (goFilepathBase path) (str "_")) && !all))) = true
    · constructor
      · intro h
        simp only [walkCount] at h
        rw [if_pos hskip] at h
        cases h
      · intro k hk
        simp only [walkCount] at hk
        rw [if_pos hskip] at hk
        injection hk with hk'
        subst hk'
        refine ⟨st.2.1, st.2.2, ?_⟩
        simp only [embedWalkM]
        rw [if_pos hskip]
        simp
    · cases node with
      | dir es =>
        by_cases hgm : (List.lookup (str "go.mod") es).isSome = true
        · constructor
          · intro h
            simp only [walkCount] at h
            rw [if_neg hskip, if_pos hgm] at h
            cases h
          · intro k hk
            simp only [walkCount] at hk
            rw [if_neg hskip, if_pos hgm] at hk
            injection hk with hk'
            subst hk'
            refine ⟨st.2.1, st.2.2, ?_⟩
            simp only [embedWalkM]
            rw [if_neg hskip, if_pos hgm]
            simp
        · have hlist := embedWalkList_count (GErr.fatal (str "walk fuel"))
            (embedWalkM root file pkgdir all pid n) (walkCount root file all n)
            (fun child p st2 => ih child p st2) (readDirSorted es) path st
          constructor
          · intro h
            simp only [walkCount] at h
            rw [if_neg hskip, if_neg hgm] at h
            have := hlist.1 h
            simp only [embedWalkM]
            rw [if_neg hskip, if_neg hgm]
            exact this
          · intro k hk
            simp only [walkCount] at hk
            rw [if_neg hskip, if_neg hgm] at hk
            obtain ⟨h2, l2, hw⟩ := hlist.2 k hk
            refine ⟨h2, l2, ?_⟩
            simp only [embedWalkM]
            rw [if_neg hskip, if_neg hgm]
            exact hw
      | file content =>
        constructor
        · intro h
          simp only [walkCount] at h
          rw [if_neg hskip] at h
          cases h
        · intro k hk
          simp only [walkCount] at hk
          rw [if_neg hskip] at hk
          injection hk with hk'
          subst hk'
          simp only [embedWalkM]
          rw [if_neg hskip]
          by_cases hl2 : List.lookup (relPathUnder pkgdir path) st.2.1 = some pid
          · refine ⟨st.2.1, st.2.2, ?_⟩
            rw [if_neg (by simpa using hl2)]
          · refine ⟨insertKVNat st.2.1 (relPathUnder pkgdir path) pid,
              st.2.2 ++ [relPathUnder pkgdir path], ?_⟩
            rw [if_pos (by simpa using hl2)]
      | other =>
        constructor
        · intro h
          simp only [walkCount] at h
          rw [if_neg hskip] at h
          cases h
        · intro k hk
          simp only [walkCount] at hk
          rw [if_neg hskip] at hk
          injection hk with hk'
          subst hk'
          refine ⟨st.2.1, st.2.2, ?_⟩
          simp only [embedWalkM]
          rw [if_neg hskip]
          simp

lemma processMatches_ok_dir_counts (root : FsNode) (walkFuel : Nat) (pkgdir : Str)
    (all : Bool) (pid : Nat) :
    ∀ (ms : List Str) (st st' : List (Str × Nat) × List Str × List Str),
      processMatches root walkFuel pkgdir all pid ms st = Except.ok st' →
      ∀ m ∈ ms, ∀ es, fsGet root m = some (FsNode.dir es) →
        ∃ k, walkCount root m all walkFuel (FsNode.dir es) m = some k ∧ 0 < k := by
  intro ms
  induction ms with
  | nil => intro st st' _ m hm; cases hm
  | cons file ms ih =>
    intro st st' h m hm es hes
    obtain ⟨hv, dirOK, list⟩ := st
    simp only [processMatches] at h
    cases hfs : fsGet root file with
    | none => rw [hfs] at h; cases h
    | some node =>
      rw [hfs] at h
      simp only [] at h
      cases hbc : embedBoundaryCheck root pkgdir file ((splitSegs file).length + 1) file dirOK with
      | error e => rw [hbc] at h; cases h
      | ok dirOK2 =>
        rw [hbc] at h
        simp only [] at h
        cases node with
        | file content =>
          rcases List.mem_cons.mp hm with hmf | hmt
          · subst hmf
            rw [hfs] at hes
            cases hes
          · by_cases hl : List.lookup (relPathUnder pkgdir file) hv = some pid
            · rw [if_neg (by simpa using hl)] at h
              exact ih _ st' h m hmt es hes
            · rw [if_pos (by simpa using hl)] at h
              exact ih _ st' h m hmt es hes
        | dir es0 =>
          simp only [] at h
          cases hwk : embedWalkM root file pkgdir all pid walkFuel (FsNode.dir es0) file
              (0, hv, list) with
          | error e => rw [hwk] at h; cases h
          | ok cst =>
            obtain ⟨count, hv2, list2⟩ := cst
            rw [hwk] at h
            simp only [] at h
            by_cases hz : count = 0
            · rw [if_pos hz] at h; cases h
            · rw [if_neg hz] at h
              rcases List.mem_cons.mp hm with hmf | hmt
              · subst hmf
                rw [hfs] at hes
                injection hes with hes'
                injection hes' with hes2
                subst hes2
                cases hwc : walkCount root m all walkFuel (FsNode.dir es0) m with
                | none =>
                  have hrr := (embedWalk_count root m pkgdir all pid walkFuel
                    (FsNode.dir es0) m (0, hv, list)).1 hwc
                  rw [hrr] at hwk
                  cases hwk
                | some k =>
                  obtain ⟨h2, l2, hw⟩ := (embedWalk_count root m pkgdir all pid walkFuel
                    (FsNode.dir es0) m (0, hv, list)).2 k hwc
                  rw [hw] at hwk
                  injection hwk with hwk'
                  have hck : count = k := by
                    have hcc := congrArg Prod.fst hwk'
                    simpa using hcc.symm
                  exact ⟨k, rfl, by omega⟩
              · exact ih _ st' h m hmt es hes
        | other => cases h

lemma resolveEmbedPats_ok_spec (root : FsNode) (wf : Nat) (pkgdir : Str) :
    ∀ (pats : List Str) (pid : Nat) (hv : List (Str × Nat)) (dirOK : List Str)
      (hv' : List (Str × Nat)),
      resolveEmbedPats root wf pkgdir pats pid hv dirOK = Except.ok hv' →
      ∀ pat ∈ pats,
        ∃ ms, globM root pkgdir (embedGlobOf pat) = Except.ok ms ∧ ms ≠ [] ∧
          ∀ m ∈ ms, ∀ es, fsGet root m = some (FsNode.dir es) →
            ∃ k, walkCount root m (embedAllOf pat) wf (FsNode.dir es) m = some k ∧ 0 < k := by
  intro pats
  induction pats with
  | nil => intro pid hv dirOK hv' _ pat hp; cases hp
  | cons pattern pats ih =>
    intro pid hv dirOK hv' h pat hp
    simp only [resolveEmbedPats] at h
    by_cases hbad : ((match pathMatch (embedGlobOf pattern) [] with
        | Except.error _ => true
        | Except.ok _ => false) || !validEmbedPattern (embedGlobOf pattern)) = true
    · rw [if_pos hbad] at h; cases h
    · rw [if_neg hbad] at h
      cases hg : globM root pkgdir (embedGlobOf pattern) with
      | error e => rw [hg] at h; cases h
      | ok mlist =>
        rw [hg] at h
        simp only [] at h
        cases hpm : processMatches root wf pkgdir (embedAllOf pattern) (pid + 1) mlist
            (hv, dirOK, []) with
        | error e => rw [hpm] at h; cases h
        | ok st2 =>
          obtain ⟨hv2, dirOK2, list⟩ := st2
          rw [hpm] at h
          simp only [] at h
          by_cases hle : list.isEmpty = true
          · rw [if_pos hle] at h; cases h
          · rw [if_neg hle] at h
            rcases List.mem_cons.mp hp with hpf | hpt
            · subst hpf
              refine ⟨mlist, hg, ?_, ?_⟩
              · intro hnil
                subst hnil
                simp only [processMatches] at hpm
                injection hpm with hpm'
                have : list = [] := (congrArg (fun s => s.2.2) hpm').symm
                rw [this] at hle
                exact hle rfl
              · exact processMatches_ok_dir_counts root wf pkgdir (embedAllOf pat)
                  (pid + 1) mlist _ _ hpm
            · exact ih (pid + 1) hv2 dirOK2 hv' h pat hpt

/-- C9: `resolveEmbed` never returns a partial file list — on success
every pattern's glob matched at least one file and every matched
directory contained at least one eligible file after filtering (so a
pattern matching nothing or an empty-after-filtering directory is
fatal); moreover `parsePackage` propagates an embed failure from its
embed phase, and any `parsePackage` failure leaves `checksum` without a
fingerprint. -/
theorem resolveEmbed_fatal_on_unmatched_or_empty :
    (∀ (root : FsNode) (wf : Nat) (pkgdir : Str) (pats : List Str) (files : List Str),
        resolveEmbedM root wf pkgdir pats = Except.ok files →
        ∀ pat ∈ pats,
          ∃ ms, globM root pkgdir (embedGlobOf pat) = Except.ok ms ∧ ms ≠ [] ∧
            ∀ m ∈ ms, ∀ es, fsGet root m = some (FsNode.dir es) →
              ∃ k, walkCount root m (embedAllOf pat) wf (FsNode.dir es) m = some k ∧ 0 < k) ∧
    (∀ (root : FsNode) (wf : Nat) (dir : Str) (pats : List Str) (pc : ParseCtxM) (e : GErr),
        resolveEmbedM root wf dir pats = Except.error e →
        embedChecksumPhase root wf dir pats pc =
          Except.error (GErr.fatal (str "failed to resolve go:embed patterns"))) ∧
    (∀ (oc : GoOracles) (root : FsNode) (wf rif pf : Nat) (dir : Str)
        (flags : List Str) (env : List (Str × Str)) (e : GErr),
        parsePackageM oc root wf rif pf ⟨[], [], []⟩ dir = Except.error e →
        checksumGoM oc root wf rif pf dir flags env = Except.error e) := by
  refine ⟨?_, ?_, ?_⟩
  · intro root wf pkgdir pats files hok
    unfold resolveEmbedM at hok
    cases hrp : resolveEmbedPats root wf pkgdir pats 0 [] [] with
    | error e => rw [hrp] at hok; cases hok
    | ok hv => exact resolveEmbedPats_ok_spec root wf pkgdir pats 0 [] [] hv hrp
  · intro root wf dir pats pc e h
    unfold embedChecksumPhase
    rw [h]
  · intro oc root wf rif pf dir flags env e h
    unfold checksumGoM packageSourceChecksumsM
    rw [h]

def c9Root : FsNode :=
  FsNode.dir [(str "m", FsNode.dir
    [(str "d", FsNode.dir [(str "x.txt", FsNode.file (str "hello"))]),
     (str "go.mod", FsNode.file (str "module m\n"))])]

/-- Witness for C9 at a concrete successful resolution: the pattern `d`
matches the directory `/m/d`, which contains one eligible file. -/
theorem resolveEmbed_fatal_witness :
    ∃ ms, globM c9Root (str "/m") (embedGlobOf (str "d")) = Except.ok ms ∧ ms ≠ [] ∧
      ∀ m ∈ ms, ∀ es, fsGet c9Root m = some (FsNode.dir es) →
        ∃ k, walkCount c9Root m (embedAllOf (str "d")) 8 (FsNode.dir es) m = some k ∧ 0 < k :=
  resolveEmbed_fatal_on_unmatched_or_empty.1 c9Root 8 (str "/m") [str "d"]
    [str "d/x.txt"] (by decide) (str "d") (List.mem_cons_self _ _)
